import Mathlib

/-!
# Verification of the CodeObserver core

A shallow embedding, in Lean, of the decision/orchestration core of the
CodeObserver VS Code extension:

* the analysis orchestrator (`AnalysisEngine` in `analysisEngine.ts`) with its
  health latch;
* the deterministic heuristic analyzer (`analyzers/heuristicAnalyzer.ts`);
* the LM Studio (inference) analyzer (`analyzers/lmStudioAnalyzer.ts`),
  in particular its response parsing and normalization;
* the insight history store (`insightStore.ts`) with its persistence,
  sanitized export and telemetry derivation;
* the activity statistics builder (`activityStats.ts`).

Modelling conventions:

* TypeScript `unknown`/JSON data is modelled by the inductive type `JVal`.
  JavaScript numbers are modelled as exact rationals (`ℚ`); floating-point
  rounding artifacts are outside the model (`NaN` is represented by `none`
  where a coercion can fail).
* Impure inputs (`Date.now()`, `Math.random()`, the inference client's reply)
  are passed explicitly as parameters.
* Stateful classes become records; methods become functions from the record
  (and the call's inputs) to the updated record and the returned value.
-/

set_option maxHeartbeats 1000000

/-- JSON-like runtime values: the model for TypeScript `unknown` data that
flows through metadata records, storage payloads and parsed inference
responses.  Object fields are kept in insertion order. -/
inductive JVal where
  | null
  | bool (b : Bool)
  | num (q : ℚ)
  | str (s : String)
  | arr (elems : List JVal)
  | obj (fields : List (String × JVal))
  deriving Inhabited

/-- Field lookup on a JSON object's field list (first match, as for the
unique-key records produced by `JSON.parse` and object literals). -/
def jget (fields : List (String × JVal)) (k : String) : Option JVal :=
  (fields.find? (fun p => p.1 = k)).map Prod.snd

/-- JavaScript truthiness on `JVal` (`undefined` is modelled separately by
`Option.none` at use sites). -/
def JVal.truthy : JVal → Bool
  | .null => false
  | .bool b => b
  | .num q => decide (q ≠ 0)
  | .str s => decide (s ≠ "")
  | .arr _ => true
  | .obj _ => true

/-- `Array.isArray`. -/
def JVal.isArray : JVal → Bool
  | .arr _ => true
  | _ => false

/-- Decimal digits of a natural number (little fuel-free helper used by the
number renderers). -/
def natDigitsRev (fuel n : ℕ) : List Char :=
  match fuel with
  | 0 => []
  | fuel + 1 =>
    if n < 10 then [Char.ofNat (48 + n)]
    else Char.ofNat (48 + n % 10) :: natDigitsRev fuel (n / 10)

/-- Render a natural number in decimal. -/
def natToString (n : ℕ) : String :=
  ⟨(natDigitsRev (n + 1) n).reverse⟩

/-- Render an integer in decimal (as JavaScript renders integral numbers). -/
def intToString (n : ℤ) : String :=
  if n < 0 then "-" ++ natToString n.natAbs else natToString n.natAbs

/-- Smallest `k ≥ 1` with `d ∣ 10^k`, searched up to the longest decimal
expansion a finite double can have.  `none` for denominators that are not of
the form `2^a * 5^b` (no finite double has such a denominator). -/
def pow10Exp (d : ℕ) : Option ℕ :=
  ((List.range 1100).find? (fun k => 10 ^ (k + 1) % d = 0)).map (· + 1)

/-- Left-pad a digit string with zeros to width `k`. -/
def padZeros (s : String) (k : ℕ) : String :=
  ⟨List.replicate (k - s.length) '0'⟩ ++ s

/-- `String(n)` for a JavaScript number, modelled on exact rationals: integers
render as their decimal digits, non-integers as their (finite) decimal
expansion without trailing zeros — which is what JavaScript prints for the
dyadic rationals that doubles are.  Exponent notation for very large/small
magnitudes and non-decimal denominators are outside the model. -/
def numToString (q : ℚ) : String :=
  if q.den = 1 then intToString q.num
  else
    match pow10Exp q.den with
    | some k =>
      let n := q.num.natAbs * (10 ^ k / q.den)
      let whole := n / 10 ^ k
      let frac := n % 10 ^ k
      (if q.num < 0 then "-" else "") ++ natToString whole ++ "." ++
        padZeros (natToString frac) k
    | none => intToString q.num ++ "/" ++ natToString q.den

mutual

/-- `String(v)` for a JSON-like value, following JavaScript's `ToString`:
`null ↦ "null"`, booleans and numbers to their literals, arrays to their
comma-joined element strings (with `null` elements rendered empty, as
`Array.prototype.join` does), plain objects to `"[object Object]"`. -/
def jsToString : JVal → String
  | .null => "null"
  | .bool true => "true"
  | .bool false => "false"
  | .num q => numToString q
  | .str s => s
  | .arr xs => jsJoinComma xs
  | .obj _ => "[object Object]"

/-- Comma-join of array elements under `ToString`. -/
def jsJoinComma : List JVal → String
  | [] => ""
  | [.null] => ""
  | [x] => jsToString x
  | .null :: xs => "," ++ jsJoinComma xs
  | x :: xs => jsToString x ++ "," ++ jsJoinComma xs

end

/-- Span of decimal digits at the head of a character list. -/
def spanDigits (cs : List Char) : List Char × List Char :=
  (cs.takeWhile Char.isDigit, cs.dropWhile Char.isDigit)

/-- Value of a (non-empty) decimal digit list. -/
def digitsToNat (ds : List Char) : ℕ :=
  ds.foldl (fun acc c => acc * 10 + (c.toNat - 48)) 0

/-- Whitespace stripped by JavaScript's `String.prototype.trim` (the common
ASCII cases; exotic Unicode space classes are outside the model). -/
def isJsWs (c : Char) : Bool :=
  c = ' ' || c = '\t' || c = '\n' || c = '\r' || c = '\x0b' || c = '\x0c'

/-- `String.prototype.trim`. -/
def jsTrim (s : String) : String :=
  ⟨((s.data.dropWhile isJsWs).reverse.dropWhile isJsWs).reverse⟩

/-- `Number("...")` on a trimmed decimal numeric literal: optional sign,
digits with an optional fractional part, optional decimal exponent.  `none`
models `NaN`.  (The empty/whitespace string coerces to `0`; hexadecimal,
octal, binary and `Infinity` literals are outside the model and map to
`none`, which downstream code treats exactly like `NaN`.) -/
def strToNumber (s : String) : Option ℚ :=
  let cs := (jsTrim s).data
  if cs.isEmpty then some 0
  else
    let (neg, cs) :=
      match cs with
      | '+' :: rest => (false, rest)
      | '-' :: rest => (true, rest)
      | rest => (false, rest)
    let (intPart, cs) := spanDigits cs
    let (fracPart, cs) :=
      match cs with
      | '.' :: rest => spanDigits rest
      | rest => ([], rest)
    let expo : Option (ℤ × List Char) :=
      match cs with
      | 'e' :: rest | 'E' :: rest =>
        let (eneg, rest) :=
          match rest with
          | '+' :: r => (false, r)
          | '-' :: r => (true, r)
          | r => (false, r)
        let (eDigits, rest) := spanDigits rest
        if eDigits.isEmpty then none
        else some ((if eneg then -(digitsToNat eDigits : ℤ) else (digitsToNat eDigits : ℤ)), rest)
      | rest => some (0, rest)
    if intPart.isEmpty ∧ fracPart.isEmpty then none
    else
      match expo with
      | none => none
      | some (e, rest) =>
        if ¬ rest.isEmpty then none
        else
          let mant : ℚ :=
            (digitsToNat intPart : ℚ) + (digitsToNat fracPart : ℚ) / 10 ^ fracPart.length
          let mag : ℚ := mant * (10 : ℚ) ^ e
          some (if neg then -mag else mag)

/-- `Number(v)` for a JSON-like value (with `none` both for a missing value's
`undefined` input and for a `NaN` result): `null ↦ 0`, booleans to `0/1`,
strings through the numeric-literal parser, arrays via `ToPrimitive` — their
comma-join — fed back through the string parser, objects to `NaN`. -/
def jsNumber : Option JVal → Option ℚ
  | none => none
  | some .null => some 0
  | some (.bool b) => some (if b then 1 else 0)
  | some (.num q) => some q
  | some (.str s) => strToNumber s
  | some (.arr xs) => strToNumber (jsJoinComma xs)
  | some (.obj _) => none

/-- Lower-case a string (ASCII, which is all the code's inputs use). -/
def lowerStr (s : String) : String :=
  ⟨s.data.map Char.toLower⟩

/-- Hex digit value. -/
def hexVal (c : Char) : Option ℕ :=
  if '0' ≤ c ∧ c ≤ '9' then some (c.toNat - 48)
  else if 'a' ≤ c ∧ c ≤ 'f' then some (c.toNat - 87)
  else if 'A' ≤ c ∧ c ≤ 'F' then some (c.toNat - 55)
  else none

/-- Read one `%HH` escape from the head of the list (which is positioned just
after a `%`), returning the byte and the rest. -/
def readPctByte : List Char → Option (ℕ × List Char)
  | h :: l :: rest =>
    match hexVal h, hexVal l with
    | some a, some b => some (a * 16 + b, rest)
    | _, _ => none
  | _ => none

/-- Read `n` UTF-8 continuation bytes, each written as `%HH` with
`0x80 ≤ HH ≤ 0xBF`, accumulating the code point. -/
def readContBytes (n : ℕ) (acc : ℕ) (cs : List Char) : Option (ℕ × List Char) :=
  match n with
  | 0 => some (acc, cs)
  | n + 1 =>
    match cs with
    | '%' :: rest =>
      match readPctByte rest with
      | some (b, rest) =>
        if 0x80 ≤ b ∧ b ≤ 0xBF then readContBytes n (acc * 64 + (b - 0x80)) rest
        else none
      | none => none
    | _ => none

/-- One step of `decodeURIComponent`: decode the escape sequence found at a
`%`, yielding the decoded character and the remaining input. -/
def decodeEscape (cs : List Char) : Option (Char × List Char) :=
  match readPctByte cs with
  | none => none
  | some (b, rest) =>
    if b < 0x80 then some (Char.ofNat b, rest)
    else if 0xC0 ≤ b ∧ b ≤ 0xDF then
      match readContBytes 1 (b - 0xC0) rest with
      | some (cp, rest) =>
        if 0x80 ≤ cp then some (Char.ofNat cp, rest) else none
      | none => none
    else if 0xE0 ≤ b ∧ b ≤ 0xEF then
      match readContBytes 2 (b - 0xE0) rest with
      | some (cp, rest) =>
        if 0x800 ≤ cp ∧ ¬ (0xD800 ≤ cp ∧ cp ≤ 0xDFFF) then some (Char.ofNat cp, rest)
        else none
      | none => none
    else if 0xF0 ≤ b ∧ b ≤ 0xF4 then
      match readContBytes 3 (b - 0xF0) rest with
      | some (cp, rest) =>
        if 0x10000 ≤ cp ∧ cp ≤ 0x10FFFF then some (Char.ofNat cp, rest) else none
      | none => none
    else none

/-- Fuelled worker for `decodeURIComponent` (the fuel is an upper bound on the
input length, so it never runs out at the call site). -/
def decodeURIChars (fuel : ℕ) (cs : List Char) : Option (List Char) :=
  match fuel with
  | 0 => none
  | fuel + 1 =>
    match cs with
    | [] => some []
    | '%' :: rest =>
      match decodeEscape rest with
      | some (c, rest) =>
        match decodeURIChars fuel rest with
        | some out => some (c :: out)
        | none => none
      | none => none
    | c :: rest =>
      match decodeURIChars fuel rest with
      | some out => some (c :: out)
      | none => none

/-- `decodeURIComponent`: percent-escapes are decoded as UTF-8 byte
sequences; a malformed escape means the call throws, modelled as `none`. -/
def decodeURIComponent (s : String) : Option String :=
  (decodeURIChars (s.data.length + 1) s.data).map (⟨·⟩)

/-- `uri.split('?')[0]`: everything before the first question mark. -/
def takeBeforeQuery (cs : List Char) : List Char :=
  cs.takeWhile (· ≠ '?')

/-- `str.split(/[\\/]/)`: split at every forward or back slash; always yields
at least one (possibly empty) segment. -/
def splitSlashes : List Char → List String
  | [] => [""]
  | c :: rest =>
    let r := splitSlashes rest
    if c = '/' ∨ c = '\\' then "" :: r
    else
      match r with
      | s :: ss => (⟨c :: s.data⟩ : String) :: ss
      | [] => [⟨[c]⟩]

namespace InsightStore

/-- `InsightStore.extractFileName` (`insightStore.ts`): strip the query
string, take the final path segment, and percent-decode it (falling back to
the raw segment if decoding throws); an empty final segment yields
`undefined`. -/
def extractFileName (uri : String) : Option String :=
  let withoutQuery := takeBeforeQuery uri.data
  let segments := splitSlashes withoutQuery
  match segments.getLast? with
  | none => none
  | some candidate =>
    if candidate = "" then none
    else some ((decodeURIComponent candidate).getD candidate)

/-- `InsightStore.extractFileNames`: keep only string entries, reduce each to
its file name, drop empties, and deduplicate preserving first insertion
order (the `Set` in the source). -/
def extractFileNames (raw : List JVal) : List String :=
  raw.foldl
    (fun acc v =>
      match v with
      | .str s =>
        match extractFileName s with
        | some name => if name = "" then acc else if name ∈ acc then acc else acc ++ [name]
        | none => acc
      | _ => acc)
    []

/-- Index of the last `.` in the name, as JavaScript's `lastIndexOf` (−1 when
absent). -/
def lastDotIdx (cs : List Char) : ℤ :=
  (cs.foldl (fun (p : ℤ × ℤ) c => (p.1 + 1, if c = '.' then p.1 else p.2)) (0, -1)).2

/-- `InsightStore.extractExtension`: the lower-cased suffix after the last
`.` of the extracted file name, or the whole lower-cased name when the last
dot is absent, leading, or trailing. -/
def extractExtension (uri : String) : Option String :=
  match extractFileName uri with
  | none => none
  | some name =>
    let d := lastDotIdx name.data
    if d ≤ 0 ∨ d = (name.data.length : ℤ) - 1 then some (lowerStr name)
    else some (lowerStr ⟨name.data.drop (d.toNat + 1)⟩)

/-- Increment the count of extension `e` in the insertion-ordered count list
(the `Map<string, number>` in the source). -/
def bumpExt (acc : List (String × ℕ)) (e : String) : List (String × ℕ) :=
  if acc.any (fun p => p.1 = e) then
    acc.map (fun p => if p.1 = e then (p.1, p.2 + 1) else p)
  else acc ++ [(e, 1)]

/-- The insertion-ordered extension counts of the (string entries of the)
`files` metadata array. -/
def countExtensions (raw : List JVal) : List (String × ℕ) :=
  raw.foldl
    (fun acc v =>
      match v with
      | .str s =>
        match extractExtension s with
        | some e => if e = "" then acc else bumpExt acc e
        | none => acc
      | _ => acc)
    []

end InsightStore

/-- Boolean lexicographic order on character lists: the model of
`a.localeCompare(b) ≤ 0` (which, on the lower-cased ASCII extension strings
this code compares, agrees with code-point order). -/
def charsLE : List Char → List Char → Bool
  | [], _ => true
  | _ :: _, [] => false
  | a :: as, b :: bs =>
    if a = b then charsLE as bs else decide (a < b)

/-- String form of `charsLE`. -/
def strLE (a b : String) : Bool :=
  charsLE a.data b.data

namespace InsightStore

/-- The sort order of `extractFileExtensions`'s comparator
`(a, b) => b[1] - a[1] || a[0].localeCompare(b[0])`: by descending count,
then alphabetically. -/
def extOrder (a b : String × ℕ) : Prop :=
  b.2 < a.2 ∨ (a.2 = b.2 ∧ strLE a.1 b.1 = true)

instance : DecidableRel extOrder := fun a b => by
  unfold extOrder; infer_instance

/-- `InsightStore.extractFileExtensions`: count extensions per string entry
and list them by descending frequency with alphabetical tie-break.  The
source sorts with `Array.prototype.sort`; since the comparator is a total
order that is antisymmetric on the (distinct) map keys, the sorted result is
unique and any sorting algorithm realizes it — we use insertion sort, which
evaluates by reduction. -/
def extractFileExtensions (raw : List JVal) : List String :=
  (List.insertionSort extOrder (countExtensions raw)).map Prod.fst

end InsightStore

/-- JSON whitespace. -/
def jsonWs (c : Char) : Bool :=
  c = ' ' || c = '\t' || c = '\n' || c = '\r'

/-- Skip JSON whitespace. -/
def skipWs (cs : List Char) : List Char :=
  cs.dropWhile jsonWs

/-- Parse exactly four hex digits. -/
def parseHex4 (cs : List Char) : Option (ℕ × List Char) :=
  match cs with
  | a :: b :: c :: d :: rest =>
    match hexVal a, hexVal b, hexVal c, hexVal d with
    | some x, some y, some z, some w => some (((x * 16 + y) * 16 + z) * 16 + w, rest)
    | _, _, _, _ => none
  | _ => none

/-- Parse the body of a JSON string (the opening quote already consumed),
returning its characters.  Escapes follow the JSON grammar; a `\uXXXX`
escape naming a high surrogate must be followed by its low-surrogate pair
(lone surrogates, which Lean's `Char` cannot represent, are outside the
model). -/
def parseJStr (fuel : ℕ) (cs : List Char) : Option (List Char × List Char) :=
  match fuel with
  | 0 => none
  | fuel + 1 =>
    match cs with
    | '"' :: rest => some ([], rest)
    | '\\' :: e :: rest =>
      let dec : Option (Char × List Char) :=
        match e, rest with
        | '"', r => some ('"', r)
        | '\\', r => some ('\\', r)
        | '/', r => some ('/', r)
        | 'b', r => some ('\x08', r)
        | 'f', r => some ('\x0c', r)
        | 'n', r => some ('\n', r)
        | 'r', r => some ('\r', r)
        | 't', r => some ('\t', r)
        | 'u', r =>
          match parseHex4 r with
          | some (n, r2) =>
            if 0xD800 ≤ n ∧ n ≤ 0xDBFF then
              match r2 with
              | '\\' :: 'u' :: r3 =>
                match parseHex4 r3 with
                | some (m, r4) =>
                  if 0xDC00 ≤ m ∧ m ≤ 0xDFFF then
                    some (Char.ofNat (0x10000 + (n - 0xD800) * 0x400 + (m - 0xDC00)), r4)
                  else none
                | none => none
              | _ => none
            else if 0xDC00 ≤ n ∧ n ≤ 0xDFFF then none
            else some (Char.ofNat n, r2)
          | none => none
        | _, _ => none
      match dec with
      | some (c, rest2) =>
        match parseJStr fuel rest2 with
        | some (out, rest3) => some (c :: out, rest3)
        | none => none
      | none => none
    | c :: rest =>
      if c.toNat < 0x20 then none
      else
        match parseJStr fuel rest with
        | some (out, rest2) => some (c :: out, rest2)
        | none => none
    | [] => none

/-- Parse a JSON number (strict JSON grammar: optional minus, `0` or a
nonzero-led digit run, optional fraction, optional exponent). -/
def parseJNum (cs : List Char) : Option (ℚ × List Char) :=
  let (neg, cs1) :=
    match cs with
    | '-' :: r => (true, r)
    | r => (false, r)
  let intPart : Option (List Char × List Char) :=
    match cs1 with
    | '0' :: r => some (['0'], r)
    | c :: _ => if c.isDigit ∧ c ≠ '0' then some (spanDigits cs1) else none
    | [] => none
  match intPart with
  | none => none
  | some (ds, cs2) =>
    let fracPart : Option (List Char × List Char) :=
      match cs2 with
      | '.' :: r =>
        let (fs, r2) := spanDigits r
        if fs.isEmpty then none else some (fs, r2)
      | r => some ([], r)
    match fracPart with
    | none => none
    | some (fs, cs3) =>
      let expPart : Option (ℤ × List Char) :=
        match cs3 with
        | 'e' :: r | 'E' :: r =>
          let (eneg, r1) :=
            match r with
            | '+' :: r2 => (false, r2)
            | '-' :: r2 => (true, r2)
            | r2 => (false, r2)
          let (es, r3) := spanDigits r1
          if es.isEmpty then none
          else some ((if eneg then -(digitsToNat es : ℤ) else (digitsToNat es : ℤ)), r3)
        | r => some (0, r)
      match expPart with
      | none => none
      | some (e, cs4) =>
        let mant : ℚ := (digitsToNat ds : ℚ) + (digitsToNat fs : ℚ) / 10 ^ fs.length
        let mag : ℚ := mant * (10 : ℚ) ^ e
        some ((if neg then -mag else mag), cs4)

/-- Replace the value at key `k` if present (keeping its position), else
append — `JSON.parse`'s duplicate-key behaviour. -/
def insertPair (fields : List (String × JVal)) (k : String) (v : JVal) :
    List (String × JVal) :=
  if fields.any (fun p => p.1 = k) then
    fields.map (fun p => if p.1 = k then (k, v) else p)
  else fields ++ [(k, v)]

mutual

/-- Fuelled recursive-descent parser for a JSON value (leading whitespace
allowed); returns the value and the unconsumed input. -/
def parseVal (fuel : ℕ) (cs : List Char) : Option (JVal × List Char) :=
  match fuel with
  | 0 => none
  | fuel + 1 =>
    match skipWs cs with
    | 'n' :: 'u' :: 'l' :: 'l' :: rest => some (.null, rest)
    | 't' :: 'r' :: 'u' :: 'e' :: rest => some (.bool true, rest)
    | 'f' :: 'a' :: 'l' :: 's' :: 'e' :: rest => some (.bool false, rest)
    | '"' :: rest =>
      match parseJStr (rest.length + 1) rest with
      | some (content, rest2) => some (.str ⟨content⟩, rest2)
      | none => none
    | '[' :: rest =>
      match skipWs rest with
      | ']' :: rest2 => some (.arr [], rest2)
      | rest2 => parseElems fuel rest2 []
    | '{' :: rest =>
      match skipWs rest with
      | '}' :: rest2 => some (.obj [], rest2)
      | rest2 => parseMembers fuel rest2 []
    | rest =>
      match parseJNum rest with
      | some (q, rest2) => some (.num q, rest2)
      | none => none

/-- Parse the remaining elements of a non-empty JSON array. -/
def parseElems (fuel : ℕ) (cs : List Char) (acc : List JVal) :
    Option (JVal × List Char) :=
  match fuel with
  | 0 => none
  | fuel + 1 =>
    match parseVal fuel cs with
    | some (v, rest) =>
      match skipWs rest with
      | ',' :: rest2 => parseElems fuel rest2 (acc ++ [v])
      | ']' :: rest2 => some (.arr (acc ++ [v]), rest2)
      | _ => none
    | none => none

/-- Parse the remaining members of a non-empty JSON object. -/
def parseMembers (fuel : ℕ) (cs : List Char) (acc : List (String × JVal)) :
    Option (JVal × List Char) :=
  match fuel with
  | 0 => none
  | fuel + 1 =>
    match skipWs cs with
    | '"' :: rest =>
      match parseJStr (rest.length + 1) rest with
      | some (key, rest2) =>
        match skipWs rest2 with
        | ':' :: rest3 =>
          match parseVal fuel rest3 with
          | some (v, rest4) =>
            let acc2 := insertPair acc ⟨key⟩ v
            match skipWs rest4 with
            | ',' :: rest5 => parseMembers fuel rest5 acc2
            | '}' :: rest5 => some (.obj acc2, rest5)
            | _ => none
          | none => none
        | _ => none
      | none => none
    | _ => none

end

/-- `JSON.parse`: parse a complete JSON document (the whole input must be
consumed, up to trailing whitespace); `none` models the thrown
`SyntaxError`.  The fuel is sufficient for every input: each two levels of
recursion consume at least one character. -/
def jsonParse (s : String) : Option JVal :=
  match parseVal (2 * s.data.length + 8) s.data with
  | some (v, rest) => if (skipWs rest).isEmpty then some v else none
  | none => none

/-- Hex digit character (lower case). -/
def hexDigitChar (n : ℕ) : Char :=
  if n < 10 then Char.ofNat (48 + n) else Char.ofNat (87 + n % 16)

/-- JSON string escaping for one character. -/
def escChar (c : Char) : List Char :=
  if c = '"' then ['\\', '"']
  else if c = '\\' then ['\\', '\\']
  else if c = '\n' then ['\\', 'n']
  else if c = '\r' then ['\\', 'r']
  else if c = '\t' then ['\\', 't']
  else if c = '\x08' then ['\\', 'b']
  else if c = '\x0c' then ['\\', 'f']
  else if c.toNat < 0x20 then
    ['\\', 'u', '0', '0', hexDigitChar (c.toNat / 16), hexDigitChar (c.toNat % 16)]
  else [c]

/-- Quote and escape a string as a JSON string literal. -/
def jstrQuote (s : String) : String :=
  ⟨'"' :: s.data.foldr (fun c acc => escChar c ++ acc) ['"']⟩

mutual

/-- `JSON.stringify` on JSON-representable values (compact form, no
spacing — as the source calls it). -/
def jsonStringify : JVal → String
  | .null => "null"
  | .bool true => "true"
  | .bool false => "false"
  | .num q => numToString q
  | .str s => jstrQuote s
  | .arr xs => "[" ++ stringifyElems xs ++ "]"
  | .obj fs => "\x7b" ++ stringifyMembers fs ++ "\x7d"

/-- Comma-joined serialized array elements. -/
def stringifyElems : List JVal → String
  | [] => ""
  | [x] => jsonStringify x
  | x :: xs => jsonStringify x ++ "," ++ stringifyElems xs

/-- Comma-joined serialized object members. -/
def stringifyMembers : List (String × JVal) → String
  | [] => ""
  | [(k, v)] => jstrQuote k ++ ":" ++ jsonStringify v
  | (k, v) :: fs => jstrQuote k ++ ":" ++ jsonStringify v ++ "," ++ stringifyMembers fs

end

/-- Left-pad the decimal rendering of `n` with zeros to width `w`. -/
def padNat (n w : ℕ) : String :=
  padZeros (natToString n) w

/-- `Date.prototype.toISOString` for a millisecond epoch timestamp, via the
standard civil-from-days conversion (proleptic Gregorian calendar).  Years
outside 0–9999 use JavaScript's expanded `±YYYYYY` form. -/
def isoTimestamp (t : ℤ) : String :=
  let days : ℤ := t.fdiv 86400000
  let msOfDay : ℕ := (t.emod 86400000).toNat
  let z : ℤ := days + 719468
  let era : ℤ := z.fdiv 146097
  let doe : ℕ := (z - era * 146097).toNat
  let yoe : ℕ := (doe - doe / 1460 + doe / 36524 - doe / 146096) / 365
  let doy : ℕ := doe - (365 * yoe + yoe / 4 - yoe / 100)
  let mp : ℕ := (5 * doy + 2) / 153
  let d : ℕ := doy - (153 * mp + 2) / 5 + 1
  let m : ℕ := if mp < 10 then mp + 3 else mp - 9
  let y : ℤ := (yoe : ℤ) + era * 400 + (if m ≤ 2 then 1 else 0)
  let yearStr :=
    if 0 ≤ y ∧ y ≤ 9999 then padNat y.toNat 4
    else if y < 0 then "-" ++ padNat y.natAbs 6
    else "+" ++ padNat y.toNat 6
  let hh := msOfDay / 3600000
  let mi := msOfDay / 60000 % 60
  let ss := msOfDay / 1000 % 60
  let ms := msOfDay % 1000
  yearStr ++ "-" ++ padNat m 2 ++ "-" ++ padNat d 2 ++ "T" ++
    padNat hh 2 ++ ":" ++ padNat mi 2 ++ ":" ++ padNat ss 2 ++ "." ++ padNat ms 3 ++ "Z"

/-- Digits of a natural number in base 36, as `Number.prototype.toString(36)`
writes them. -/
def base36DigitsRev (fuel n : ℕ) : List Char :=
  match fuel with
  | 0 => []
  | fuel + 1 =>
    let d := n % 36
    let c := if d < 10 then Char.ofNat (48 + d) else Char.ofNat (87 + d)
    if n < 36 then [c] else c :: base36DigitsRev fuel (n / 36)

/-- `n.toString(36)` for an integral timestamp. -/
def toBase36 (n : ℤ) : String :=
  if n < 0 then "-" ++ (⟨(base36DigitsRev (n.natAbs + 1) n.natAbs).reverse⟩ : String)
  else ⟨(base36DigitsRev (n.natAbs + 1) n.natAbs).reverse⟩

/-- `StrategicInsight` (`types.ts`): the system's central artifact.
`metadata` is an optional insertion-ordered record of JSON-like values. -/
structure StrategicInsight where
  id : String
  summary : String
  confidence : ℚ
  actions : List String
  timestamp : ℚ
  metadata : Option (List (String × JVal))
  deriving Inhabited

/-- `TelemetrySnapshot` (`insightStore.ts`). -/
structure TelemetrySnapshot where
  timestamp : ℚ
  languageCount : ℚ
  fileExtensions : List String
  changeCount : Option ℚ
  saveCount : Option ℚ
  confidence : ℚ
  reason : Option String
  source : Option String
  deriving Inhabited

/-- `InsightExportPayload` (`insightStore.ts`). -/
structure InsightExportPayload where
  generatedAt : ℚ
  insightCount : ℕ
  telemetryCount : ℕ
  insights : List StrategicInsight
  telemetry : List TelemetrySnapshot

namespace InsightStore

/-- The `Memento` storage collaborator: a key-value map holding
JSON-representable values, in insertion order. -/
abbrev Memento := List (String × JVal)

/-- `Memento.get`. -/
def mGet (m : Memento) (k : String) : Option JVal :=
  jget m k

/-- `Memento.update` (storing a defined value: replace in place or append). -/
def mUpdate (m : Memento) (k : String) (v : JVal) : Memento :=
  if (m : List (String × JVal)).any (fun p => p.1 = k) then
    (m : List (String × JVal)).map (fun p => if p.1 = k then (k, v) else p)
  else (m : List (String × JVal)) ++ [(k, v)]

/-- `DEFAULT_MAX_HISTORY_ITEMS`. -/
def DEFAULT_MAX_HISTORY_ITEMS : ℕ := 20

/-- `DEFAULT_STORAGE_KEY`. -/
def DEFAULT_STORAGE_KEY : String := "codeObserver.insightHistory"

/-- `DEFAULT_TELEMETRY_STORAGE_KEY`. -/
def DEFAULT_TELEMETRY_STORAGE_KEY : String := "codeObserver.telemetryHistory"

/-- `DEFAULT_MAX_TELEMETRY_ITEMS`. -/
def DEFAULT_MAX_TELEMETRY_ITEMS : ℕ := 100

/-- `InsightStoreOptions`. -/
structure Options where
  storage : Option Memento := none
  storageKey : Option String := none
  maxHistoryItems : Option ℕ := none
  telemetryStorageKey : Option String := none
  maxTelemetryItems : Option ℕ := none

/-- The mutable state of an `InsightStore` instance.  The `EventEmitter` is an
outward notification channel and carries no state relevant to the claims. -/
structure State where
  latest : Option StrategicInsight
  history : List StrategicInsight
  storage : Option Memento
  storageKey : String
  maxHistoryItems : ℕ
  telemetryHistory : List TelemetrySnapshot
  telemetryStorageKey : String
  maxTelemetryItems : ℕ

/-- `deepCloneMetadata`: the source clones through a
`JSON.parse(JSON.stringify(…))` round trip, which is the identity on the
JSON-representable metadata this model carries. -/
def deepCloneMetadata (m : List (String × JVal)) : List (String × JVal) := m

/-- `cloneInsight`: rebuild the record with fresh containers. -/
def cloneInsight (i : StrategicInsight) : StrategicInsight :=
  { id := i.id
    summary := i.summary
    confidence := i.confidence
    actions := i.actions
    timestamp := i.timestamp
    metadata := i.metadata.map deepCloneMetadata }

theorem cloneInsight_eq (i : StrategicInsight) : cloneInsight i = i := by
  cases i with
  | mk id summary confidence actions timestamp metadata =>
    cases metadata <;> rfl

mutual

/-- `toSerializable`: primitives pass through, arrays map recursively, plain
objects go through a JSON round trip (the identity here). -/
def toSerializable : JVal → JVal
  | .null => .null
  | .str s => .str s
  | .num q => .num q
  | .bool b => .bool b
  | .arr xs => .arr (toSerializableList xs)
  | .obj m => .obj m

/-- `toSerializable` mapped over array elements. -/
def toSerializableList : List JVal → List JVal
  | [] => []
  | x :: xs => toSerializable x :: toSerializableList xs

end

/-- `encodeInsight`: the JSON shape under which an insight is persisted to the
storage collaborator (field order as in the object literal that
`cloneInsight`/`toStoredInsight` build; an `undefined` metadata field is
dropped, as serialization drops it). -/
def encodeInsight (i : StrategicInsight) : JVal :=
  .obj
    ([("id", .str i.id), ("summary", .str i.summary), ("confidence", .num i.confidence),
      ("actions", .arr (i.actions.map .str)), ("timestamp", .num i.timestamp)] ++
      (match i.metadata with
       | some m => [("metadata", .obj m)]
       | none => []))

/-- The JSON shape under which a telemetry snapshot is persisted. -/
def encodeTelemetry (t : TelemetrySnapshot) : JVal :=
  .obj
    ([("timestamp", .num t.timestamp), ("languageCount", .num t.languageCount),
      ("fileExtensions", .arr (t.fileExtensions.map .str))] ++
      (match t.changeCount with
       | some q => [("changeCount", .num q)]
       | none => []) ++
      (match t.saveCount with
       | some q => [("saveCount", .num q)]
       | none => []) ++
      [("confidence", .num t.confidence)] ++
      (match t.reason with
       | some r => [("reason", .str r)]
       | none => []) ++
      (match t.source with
       | some r => [("source", .str r)]
       | none => []))

/-- `persistHistory` (with a defined payload): serialize a clone of each
insight under the history key. -/
def persistHistory (s : State) (payload : List StrategicInsight) : State :=
  match s.storage with
  | none => s
  | some m =>
    { s with storage := some (mUpdate m s.storageKey (.arr ((payload.map cloneInsight).map encodeInsight))) }

/-- `persistTelemetry` with an explicit payload. -/
def persistTelemetryWith (s : State) (payload : List TelemetrySnapshot) : State :=
  match s.storage with
  | none => s
  | some m =>
    { s with storage := some (mUpdate m s.telemetryStorageKey (.arr (payload.map encodeTelemetry))) }

/-- `persistTelemetry()` without argument persists the current in-memory
telemetry history. -/
def persistTelemetry (s : State) : State :=
  persistTelemetryWith s s.telemetryHistory

/-- `persist`: persist a clone of the current history, if storage is
attached. -/
def persist (s : State) : State :=
  match s.storage with
  | none => s
  | some _ => persistHistory s (s.history.map cloneInsight)

/-- `toNumeric`: finite numbers pass, everything else is `undefined`. -/
def toNumeric : Option JVal → Option ℚ
  | some (.num q) => some q
  | _ => none

/-- `recordTelemetry`: derive a privacy-reduced snapshot from the insight's
metadata, prepend it, truncate to the telemetry cap, and persist. -/
def recordTelemetry (s : State) (insight : StrategicInsight) : State :=
  let metadata := insight.metadata.getD []
  let files :=
    match jget metadata "files" with
    | some (.arr xs) => xs
    | _ => []
  let languages :=
    match jget metadata "languages" with
    | some (.arr xs) => xs
    | _ => []
  let snapshot : TelemetrySnapshot :=
    { timestamp := insight.timestamp
      languageCount := (languages.length : ℚ)
      fileExtensions := extractFileExtensions files
      changeCount := toNumeric (jget metadata "changeCount")
      saveCount := toNumeric (jget metadata "saveCount")
      confidence := insight.confidence
      reason :=
        match jget metadata "reason" with
        | some (.str r) => some r
        | _ => none
      source :=
        match jget metadata "source" with
        | some (.str r) => some r
        | _ => none }
  let t1 := snapshot :: s.telemetryHistory
  let t2 := if s.maxTelemetryItems < t1.length then t1.take s.maxTelemetryItems else t1
  persistTelemetry { s with telemetryHistory := t2 }

/-- `setLatest`: clone, prepend, truncate to the history cap, persist, then
derive telemetry.  (The final `changeEmitter.fire` is outward notification
only.) -/
def setLatest (s : State) (insight : StrategicInsight) : State :=
  let cloned := cloneInsight insight
  let h1 := cloned :: s.history
  let h2 := if s.maxHistoryItems < h1.length then h1.take s.maxHistoryItems else h1
  let s1 := { s with latest := some cloned, history := h2 }
  let s2 := persist s1
  recordTelemetry s2 cloned

/-- `getLatest`. -/
def getLatest (s : State) : Option StrategicInsight :=
  s.latest.map cloneInsight

/-- `getHistory`. -/
def getHistory (s : State) : List StrategicInsight :=
  s.history.map cloneInsight

/-- `getHistoryCount`. -/
def getHistoryCount (s : State) : ℕ :=
  s.history.length

/-- `getTelemetryHistory` (clones are the identity in this model). -/
def getTelemetryHistory (s : State) : List TelemetrySnapshot :=
  s.telemetryHistory

/-- `sanitizeMetadataForExport`: drop `rawResponse`, reduce an array-valued
`files` entry to bare file names, pass everything else through
`toSerializable`. -/
def sanitizeMetadataForExport (m : List (String × JVal)) : List (String × JVal) :=
  m.filterMap
    (fun p =>
      if p.1 = "rawResponse" then none
      else if p.1 = "files" then
        match p.2 with
        | .arr xs => some ("files", .arr ((extractFileNames xs).map .str))
        | v => some (p.1, toSerializable v)
      else some (p.1, toSerializable p.2))

/-- `toStoredInsight`: clone and sanitize the metadata. -/
def toStoredInsight (i : StrategicInsight) : StrategicInsight :=
  let clone := cloneInsight i
  { id := clone.id
    summary := clone.summary
    confidence := clone.confidence
    actions := clone.actions
    timestamp := clone.timestamp
    metadata := clone.metadata.map sanitizeMetadataForExport }

/-- `getExportSnapshot` (`Date.now()` passed explicitly). -/
def getExportSnapshot (s : State) (now : ℚ) : InsightExportPayload :=
  let insights := s.history.map toStoredInsight
  let telemetry := getTelemetryHistory s
  { generatedAt := now
    insightCount := insights.length
    telemetryCount := telemetry.length
    insights := insights
    telemetry := telemetry }

/-- `clearHistory`: empty both lists in memory and in storage (a no-op when
both are already empty). -/
def clearHistory (s : State) : State :=
  if s.history.isEmpty ∧ s.telemetryHistory.isEmpty then s
  else
    let s1 := { s with history := [], telemetryHistory := [], latest := none }
    persistTelemetryWith (persistHistory s1 []) []

/-- `isInsightLike`: the structural shape check applied to restored history
entries.  (A non-object value has none of the required string-keyed
properties, so only JSON objects can pass.) -/
def isInsightLike : JVal → Bool
  | .obj m =>
    (match jget m "id" with
     | some (.str _) => true
     | _ => false) &&
    (match jget m "summary" with
     | some (.str _) => true
     | _ => false) &&
    (match jget m "confidence" with
     | some (.num _) => true
     | _ => false) &&
    (match jget m "timestamp" with
     | some (.num _) => true
     | _ => false) &&
    (match jget m "actions" with
     | some (.arr _) => true
     | _ => false)
  | _ => false

/-- `normalizeStoredInsight`: coerce the restored fields.  `String(…)` of a
missing property is `"undefined"` and `Number(…)` of one is `NaN` — both
unreachable after `isInsightLike`; `NaN` is modelled as `0` here.  A truthy
non-object `metadata` (which the source would enumerate like a record) is
outside the model: system-written payloads always store object metadata. -/
def normalizeStoredInsight (v : JVal) : StrategicInsight :=
  let m :=
    match v with
    | .obj m => m
    | _ => []
  { id := (jget m "id").elim "undefined" jsToString
    summary := (jget m "summary").elim "undefined" jsToString
    confidence := (jsNumber (jget m "confidence")).getD 0
    actions :=
      match jget m "actions" with
      | some (.arr xs) => xs.map jsToString
      | _ => []
    timestamp := (jsNumber (jget m "timestamp")).getD 0
    metadata :=
      match jget m "metadata" with
      | some (.obj mm) => some (deepCloneMetadata mm)
      | _ => none }

/-- `isTelemetrySnapshot`. -/
def isTelemetrySnapshot : JVal → Bool
  | .obj m =>
    (match jget m "timestamp" with
     | some (.num _) => true
     | _ => false) &&
    (match jget m "languageCount" with
     | some (.num _) => true
     | _ => false) &&
    (match jget m "fileExtensions" with
     | some (.arr _) => true
     | _ => false)
  | _ => false

/-- `normalizeTelemetry` (`Number(…) || 0` maps a falsy or `NaN` coercion to
`0`). -/
def normalizeTelemetry (v : JVal) : TelemetrySnapshot :=
  let m :=
    match v with
    | .obj m => m
    | _ => []
  { timestamp := (jsNumber (jget m "timestamp")).getD 0
    languageCount := (jsNumber (jget m "languageCount")).getD 0
    fileExtensions :=
      match jget m "fileExtensions" with
      | some (.arr xs) => xs.map jsToString
      | _ => []
    changeCount := toNumeric (jget m "changeCount")
    saveCount := toNumeric (jget m "saveCount")
    confidence := (jsNumber (jget m "confidence")).getD 0
    reason :=
      match jget m "reason" with
      | some (.str r) => some r
      | _ => none
    source :=
      match jget m "source" with
      | some (.str r) => some r
      | _ => none }

/-- `restoreFromStorage`, run during construction. -/
def restoreFromStorage (s : State) : State :=
  match s.storage with
  | none => s
  | some m =>
    match mGet m s.storageKey with
    | some (.arr payload) =>
      if payload.isEmpty then s
      else
        let restored :=
          ((payload.filter isInsightLike).map normalizeStoredInsight).take s.maxHistoryItems
        if restored.isEmpty then s
        else { s with history := s.history ++ restored, latest := restored.head? }
    | _ => s

/-- `restoreTelemetry`, run during construction. -/
def restoreTelemetry (s : State) : State :=
  match s.storage with
  | none => s
  | some m =>
    match mGet m s.telemetryStorageKey with
    | some (.arr payload) =>
      if payload.isEmpty then s
      else
        let restored :=
          ((payload.filter isTelemetrySnapshot).map normalizeTelemetry).take s.maxTelemetryItems
        if restored.isEmpty then s
        else { s with telemetryHistory := s.telemetryHistory ++ restored }
    | _ => s

/-- The `InsightStore` constructor: apply defaults, then restore both lists
when storage is attached. -/
def mkStore (opts : Options) : State :=
  let s : State :=
    { latest := none
      history := []
      storage := opts.storage
      storageKey := opts.storageKey.getD DEFAULT_STORAGE_KEY
      maxHistoryItems := opts.maxHistoryItems.getD DEFAULT_MAX_HISTORY_ITEMS
      telemetryHistory := []
      telemetryStorageKey := opts.telemetryStorageKey.getD DEFAULT_TELEMETRY_STORAGE_KEY
      maxTelemetryItems := opts.maxTelemetryItems.getD DEFAULT_MAX_TELEMETRY_ITEMS }
  match s.storage with
  | none => s
  | some _ => restoreTelemetry (restoreFromStorage s)

end InsightStore

/-- `ActivityEvent` (`types.ts`). -/
structure ActivityEvent where
  kind : String
  uri : String
  languageId : Option String := none
  details : Option JVal := none
  timestamp : ℤ

/-- `AnalysisContext` (`analysisTypes.ts`). -/
structure AnalysisContext where
  events : List ActivityEvent
  objectives : List String
  reason : String

/-- `ActivityStats` (`analysisTypes.ts`). -/
structure ActivityStats where
  files : List String
  languages : List String
  changeCount : ℕ
  saveCount : ℕ
  eventCount : ℕ
  recentEvents : List String

/-- Join strings with a separator. -/
def joinSep (sep : String) : List String → String
  | [] => ""
  | [a] => a
  | a :: rest => a ++ sep ++ joinSep sep rest

/-- `describeEvent` (`activityStats.ts`): one prompt line for a recorded
event.  `Date.now()` (used when the event timestamp is falsy) is the `now`
parameter. -/
def describeEvent (now : ℤ) (event : ActivityEvent) (ordinal : ℕ) : String :=
  let t := if event.timestamp = 0 then now else event.timestamp
  let timestamp := isoTimestamp t
  let language :=
    match event.languageId with
    | some l => if l = "" then "" else " • " ++ l
    | none => ""
  let details :=
    match event.details with
    | some d => if d.truthy then (jsonStringify d).take 180 else ""
    | none => ""
  let detailSuffix := if details = "" then "" else " • details: " ++ details
  natToString ordinal ++ ". " ++ event.kind ++ " • " ++ timestamp ++ language ++ " • " ++
    event.uri ++ detailSuffix

/-- `buildActivityStats` (`activityStats.ts`): deduplicated files and
languages (insertion order), per-kind counts, and the last `maxEvents`
events reversed to most-recent-first and rendered as prompt lines.
`slice(-0)` is the whole array, hence the `maxEvents = 0` case. -/
def buildActivityStats (ctx : AnalysisContext) (maxEvents : ℕ) (now : ℤ) : ActivityStats :=
  let files :=
    ctx.events.foldl (fun acc e => if e.uri ∈ acc then acc else acc ++ [e.uri]) []
  let languages :=
    ctx.events.foldl
      (fun acc e =>
        match e.languageId with
        | some l => if l = "" then acc else if l ∈ acc then acc else acc ++ [l]
        | none => acc)
      []
  let changeCount := (ctx.events.filter (fun e => e.kind = "documentChange")).length
  let saveCount := (ctx.events.filter (fun e => e.kind = "documentSave")).length
  let recent := if maxEvents = 0 then ctx.events else ctx.events.drop (ctx.events.length - maxEvents)
  let recentEvents := recent.reverse.enum.map (fun p => describeEvent now p.2 (p.1 + 1))
  { files := files
    languages := languages
    changeCount := changeCount
    saveCount := saveCount
    eventCount := ctx.events.length
    recentEvents := recentEvents }

/-- `toFixed(2)` followed by `Number(…)`: round to two decimal places (ties
away from zero toward `+∞`, as `toFixed` picks the larger candidate). -/
def round2 (q : ℚ) : ℚ :=
  (round (q * 100) : ℚ) / 100

namespace HeuristicAnalyzer

/-- `RANDOM_INSIGHT_POOL` (`analyzers/heuristicAnalyzer.ts`). -/
def RANDOM_INSIGHT_POOL : List String :=
  ["Review the boundaries between core modules to prevent accidental coupling.",
   "Capture lessons learned in documentation before the context is lost.",
   "Align the latest refactors with your stated architectural patterns.",
   "Validate that new code paths include adequate telemetry for observability.",
   "Check error handling branches to match reliability objectives."]

/-- Analyzer call metadata: the provenance tag and, after an upstream
failure, the triggering error (modelled by its message text — the thrown
values in this codebase are `Error` objects, whose truthiness is
uncondition­al and whose `message` is what `analyze` records). -/
structure Meta where
  source : String
  error : Option String

/-- `pickObjective`: index by `|fileCount + languageCount + Date.now()| mod
objectives.length`, with a fixed default for an empty list. -/
def pickObjective (objectives : List String) (fileTouchCount languageCount : ℕ) (now : ℤ) :
    String :=
  if objectives.isEmpty then "Maintain overarching project goals"
  else
    objectives.getD (((fileTouchCount : ℤ) + (languageCount : ℤ) + now).natAbs % objectives.length) ""

/-- `buildSummary`: a pool sentence (indexed by `Math.floor(Math.random()*5)`,
passed as `rnd`) plus metric clauses. -/
def buildSummary (objective : String) (files languages saves changes : ℕ) (rnd : Fin 5) :
    String :=
  let insightBase := RANDOM_INSIGHT_POOL.getD rnd.val ""
  let filePart := if 1 < files then natToString files ++ " files touched" else "single file focus"
  let languagePart := if 1 < languages then natToString languages ++ " languages" else "one language"
  let changeDensity := if 4 < changes then "high iteration tempo" else "steady iteration pace"
  let saveRhythm := if 2 < saves then "frequent checkpoints" else "infrequent saves"
  insightBase ++ " Currently observing " ++ filePart ++ " across " ++ languagePart ++
    " with a " ++ changeDensity ++ " and " ++ saveRhythm ++ ". Stay aligned with \"" ++
    objective ++ "\"."

/-- `deriveActions` (`analyzers/heuristicAnalyzer.ts`): review session when
`changeCount > 6`, recovery points when `saveCount === 0`, else one generic
objective check. -/
def deriveActions (changeCount saveCount : ℕ) (objective : String) : List String :=
  let a1 :=
    if 6 < changeCount then ["Schedule a focused review session for the most active files."]
    else []
  let a2 :=
    if saveCount = 0 then a1 ++ ["Persist work-in-progress to create recovery points."]
    else a1
  if a2.isEmpty then
    ["Evaluate whether current changes reinforce the objective: " ++ objective ++ "."]
  else a2

/-- `estimateConfidence`: base plus a capped activity modifier, rounded to two
decimals, capped at 0.9. -/
def estimateConfidence (base : ℚ) (changeCount saveCount : ℕ) : ℚ :=
  let modifier := min (0.35 : ℚ) (((changeCount : ℚ) + (saveCount : ℚ)) * 0.03)
  min (0.9 : ℚ) (round2 (base + modifier))

/-- `HeuristicAnalyzer.analyze`: always succeeds; builds the summary, actions,
confidence and provenance metadata (plus `errorMessage` when invoked after a
failure). -/
def analyze (objectives : List String) (base : ℚ) (ctx : AnalysisContext)
    (stats : ActivityStats) (meta : Meta) (now : ℤ) (rnd : Fin 5) : StrategicInsight :=
  let dominantObjective := pickObjective objectives stats.files.length stats.languages.length now
  let summary :=
    buildSummary dominantObjective stats.files.length stats.languages.length
      stats.saveCount stats.changeCount rnd
  let actions := deriveActions stats.changeCount stats.saveCount dominantObjective
  let confidence := estimateConfidence base stats.changeCount stats.saveCount
  let md :=
    [("source", JVal.str meta.source), ("files", JVal.arr (stats.files.map .str)),
     ("languages", JVal.arr (stats.languages.map .str)),
     ("eventCount", JVal.num (stats.eventCount : ℚ)), ("reason", JVal.str ctx.reason)]
  let md :=
    match meta.error with
    | some e => md ++ [("errorMessage", JVal.str e)]
    | none => md
  { id := "insight-" ++ toBase36 now
    summary := summary
    confidence := confidence
    actions := actions
    timestamp := (now : ℚ)
    metadata := some md }

end HeuristicAnalyzer

namespace HeuristicRich

/-!
The repository ships a second, richer `HeuristicAnalyzer` revision (the
variant concatenated into the `extension.ts` source blob, lines 488–725),
whose `deriveActions` (lines 574–597) keys on representative files, language
spread and a `changes > 8 && saves < 2` checkpoint rule.  Only the parts
needed to compare rule sets are embedded here.
-/

/-- The rich variant's `extractFileName`: only `file://` URIs qualify; strip
the scheme and query, take the final segment, percent-decode (falling back
to the raw segment on a decode error). -/
def extractFileName (uri : String) : Option String :=
  if ¬ ("file://".data.isPrefixOf uri.data) then none
  else
    let withoutScheme := uri.data.drop 7
    let strippedQuery := takeBeforeQuery withoutScheme
    let segments := splitSlashes strippedQuery
    match segments.getLast? with
    | none => none
    | some candidate =>
      if candidate = "" then none
      else some ((decodeURIComponent candidate).getD candidate)

/-- The rich variant's `collectFileNames`: extracted names, deduplicated in
insertion order. -/
def collectFileNames (uris : List String) : List String :=
  uris.foldl
    (fun acc uri =>
      match extractFileName uri with
      | some name => if name = "" then acc else if name ∈ acc then acc else acc ++ [name]
      | none => acc)
    []

/-- `selectRepresentativeFiles`: the first three collected names. -/
def selectRepresentativeFiles (uris : List String) : List String :=
  (collectFileNames uris).take 3

/-- `humaniseList`. -/
def humaniseList : List String → String
  | [] => ""
  | [a] => a
  | [a, b] => a ++ " and " ++ b
  | items => joinSep ", " items.dropLast ++ ", and " ++ (items.getLast?.getD "")

/-- The rich variant's `deriveActions` (`extension.ts` blob lines 574–597):
walk through up to three representative files; sync interfaces when more
than one language is touched; checkpoint when `changes > 8 && saves < 2`;
else one generic objective check. -/
def deriveActions (stats : ActivityStats) (objective : String) : List String :=
  let focusFiles := selectRepresentativeFiles stats.files
  let a1 :=
    if ¬ focusFiles.isEmpty then
      ["Walk through " ++ humaniseList focusFiles ++
        " and capture follow-ups that keep \"" ++ objective ++ "\" on track."]
    else []
  let a2 :=
    if 1 < stats.languages.length then
      a1 ++ ["Sync interface changes across languages to prevent drift."]
    else a1
  let a3 :=
    if 8 < stats.changeCount ∧ stats.saveCount < 2 then
      a2 ++ ["Checkpoint the current work to create a safe rollback point."]
    else a2
  if a3.isEmpty then
    ["Evaluate whether the latest edits reinforce \"" ++ objective ++ "\" and note gaps."]
  else a3

end HeuristicRich

namespace LmStudioAnalyzer

/-- `DEFAULT_SYSTEM_PROMPT` (`analyzers/lmStudioAnalyzer.ts`). -/
def DEFAULT_SYSTEM_PROMPT : String :=
  "You are CodeObserver, an architectural oversight assistant.\nProvide concise strategic insights that help software teams evaluate recent code activity.\nPrioritize architectural alignment, design clarity, and risk mitigation."

/-- `HarmonyPayload`. -/
structure HarmonyPayload where
  summary : String
  confidence : ℚ
  actions : List String
  reasoning : Option String

/-- Last index of a character, as `lastIndexOf` (−1 when absent encoded by
`none`): the first match scanning from the end. -/
def lastIdxOf (cs : List Char) (c : Char) : Option ℕ :=
  (cs.reverse.findIdx? (· = c)).map (fun k => cs.length - 1 - k)

/-- The greedy regex match `trimmed.match(/\x7b[\s\S]*\x7d/)`: the span from
the *first* opening brace to the *last* closing brace of the whole string
(when the latter lies strictly after the former).  This is what the greedy
`[\s\S]*` yields — not the first *balanced* brace span. -/
def greedyJsonMatch (s : String) : Option String :=
  let cs := s.data
  let openBrace : Char := Char.ofNat 123
  let closeBrace : Char := Char.ofNat 125
  match cs.findIdx? (· = openBrace), lastIdxOf cs closeBrace with
  | some i, some j =>
    if i < j then some ⟨(cs.drop i).take (j - i + 1)⟩ else none
  | _, _ => none

/-- `normalizeConfidence`: coerce, clamp to `[0.05, 0.99]` and round to two
decimals when finite; default `0.7` otherwise. -/
def normalizeConfidence (v : Option JVal) : ℚ :=
  match jsNumber v with
  | some q => round2 (min (0.99 : ℚ) (max (0.05 : ℚ) q))
  | none => 0.7

/-- `parseHarmonyResponse` (`extension.ts` blob lines 420–461): locate the
greedy brace span of the trimmed response, `JSON.parse` it, validate
`summary` (the `!payload.summary` truthiness test also rejects an *empty*
summary string), normalize `actions` (trim strings, stringify the rest,
drop empties, cap at 4) and `confidence`, and trim the optional `reasoning`
(a present non-null, non-string `reasoning` makes `?.trim()` throw a
`TypeError`, modelled as an error result; the thrown error's message text
is modelled by a fixed representative string per error site). -/
def parseHarmonyResponse (raw : String) : Except String HarmonyPayload :=
  let trimmed := jsTrim raw
  match greedyJsonMatch trimmed with
  | none => Except.error "LM Studio response is missing the expected JSON payload."
  | some span =>
    match jsonParse span with
    | none => Except.error "LM Studio response contained invalid JSON."
    | some parsed =>
      match parsed with
      | .null => Except.error "LM Studio response JSON must be an object."
      | .bool _ => Except.error "LM Studio response JSON must be an object."
      | .num _ => Except.error "LM Studio response JSON must be an object."
      | .str _ => Except.error "LM Studio response JSON must be an object."
      | .arr _ => Except.error "LM Studio response must include a textual \"summary\" field."
      | .obj fields =>
        match jget fields "summary" with
        | some (.str s) =>
          if s = "" then
            Except.error "LM Studio response must include a textual \"summary\" field."
          else
            let actions :=
              match jget fields "actions" with
              | some (.arr xs) =>
                ((xs.map fun item =>
                      match item with
                      | .str t => jsTrim t
                      | v => jsToString v).filter
                    (fun t => t ≠ "")).take 4
              | _ => []
            let confidence := normalizeConfidence (jget fields "confidence")
            match jget fields "reasoning" with
            | none =>
              Except.ok
                { summary := jsTrim s, confidence := confidence, actions := actions,
                  reasoning := none }
            | some .null =>
              Except.ok
                { summary := jsTrim s, confidence := confidence, actions := actions,
                  reasoning := none }
            | some (.str r) =>
              Except.ok
                { summary := jsTrim s, confidence := confidence, actions := actions,
                  reasoning := some (jsTrim r) }
            | some _ => Except.error "payload.reasoning.trim is not a function"
        | _ => Except.error "LM Studio response must include a textual \"summary\" field."

/-- `fallbackActions` (`extension.ts` blob lines 463–476): review session
when `changeCount > 6`, recovery points when `saveCount === 0`, else one
generic check against the first objective. -/
def fallbackActions (changeCount saveCount : ℕ) (objectives : List String) : List String :=
  let objective := (objectives.head?).getD "Maintain overarching project goals"
  let a1 :=
    if 6 < changeCount then ["Schedule a focused review session for the most active files."]
    else []
  let a2 :=
    if saveCount = 0 then a1 ++ ["Persist work-in-progress to create recovery points."]
    else a1
  if a2.isEmpty then
    ["Evaluate whether current changes reinforce the objective: " ++ objective ++ "."]
  else a2

/-- `buildHarmonyPrompt`. -/
def buildHarmonyPrompt (systemPrompt : String) (ctx : AnalysisContext)
    (stats : ActivityStats) : String :=
  let objectiveLines :=
    if ¬ ctx.objectives.isEmpty then
      ctx.objectives.enum.map (fun p => natToString (p.1 + 1) ++ ". " ++ p.2)
    else ["No explicit objectives provided."]
  let activityLines :=
    if ¬ stats.recentEvents.isEmpty then stats.recentEvents
    else ["No recent activity recorded."]
  let metricsBlock :=
    joinSep "\n"
      ["Files touched: " ++ natToString stats.files.length,
       "Languages observed: " ++ natToString stats.languages.length,
       "Document changes: " ++ natToString stats.changeCount,
       "Document saves: " ++ natToString stats.saveCount,
       "Total events: " ++ natToString stats.eventCount,
       "Analysis reason: " ++ ctx.reason]
  let responseInstructions :=
    "Respond with a single JSON object matching: \x7b\"summary\": string, \"confidence\": number between 0 and 1, \"actions\": string[] (maximum 4 concise strategic recommendations), \"reasoning\": string (optional)\x7d."
  joinSep "\n"
    ["<|system|>", systemPrompt, "<|user|>", "Project objectives:",
     joinSep "\n" objectiveLines, "\nRecent activity (most recent first):",
     joinSep "\n" activityLines, "\nMetrics:", metricsBlock, "\nGuidelines:",
     responseInstructions, "<|assistant|>"]

/-- `LmStudioAnalyzer.analyze`: send the prompt (the client's reply — or
thrown failure — is the explicit `chatOutcome` input), parse and validate
the response, fall back to `fallbackActions` when the normalized action list
is empty, and attach the inference provenance metadata (including the raw
response). -/
def analyze (chatOutcome : Except String String) (ctx : AnalysisContext)
    (stats : ActivityStats) (now : ℤ) : Except String StrategicInsight :=
  match chatOutcome with
  | .error e => .error e
  | .ok response =>
    match parseHarmonyResponse response with
    | .error e => .error e
    | .ok parsed =>
      .ok
        { id := "insight-" ++ toBase36 now
          summary := parsed.summary
          confidence := parsed.confidence
          actions :=
            if parsed.actions.isEmpty then
              fallbackActions stats.changeCount stats.saveCount ctx.objectives
            else parsed.actions
          timestamp := (now : ℚ)
          metadata :=
            some
              ([("source", JVal.str "lmstudio"), ("files", JVal.arr (stats.files.map .str)),
                ("languages", JVal.arr (stats.languages.map .str)),
                ("eventCount", JVal.num (stats.eventCount : ℚ)),
                ("reason", JVal.str ctx.reason), ("rawResponse", JVal.str response)] ++
                (match parsed.reasoning with
                 | some r => [("reasoning", JVal.str r)]
                 | none => [])) }

end LmStudioAnalyzer

namespace AnalysisEngine

/-- `options.systemPrompt?.trim() || undefined`. -/
def trimOrNone : Option String → Option String
  | none => none
  | some p => let t := jsTrim p; if t = "" then none else some t

/-- `AnalysisEngineOptions` (client presence abstracted to a flag: the client
itself is an external collaborator whose behaviour enters `run` as the
explicit chat outcome). -/
structure Options where
  objectives : List String
  systemPrompt : Option String := none
  maxEventsInPrompt : Option ℕ := none
  fallbackConfidenceBase : Option ℚ := none
  hasLmStudioClient : Bool := false

/-- The orchestrator's state: configuration plus the health latch and the
presence of an attached LM Studio analyzer (which holds the client
reference). -/
structure State where
  objectives : List String
  systemPrompt : Option String
  maxEventsInPrompt : ℕ
  fallbackConfidenceBase : ℚ
  hasLmStudioAnalyzer : Bool
  lmStudioHealthy : Bool

/-- `attachLmStudioClient` (private): build a fresh analyzer around the
client and re-initialize the health latch. -/
def attachLmStudioClient (s : State) : State :=
  { s with hasLmStudioAnalyzer := true, lmStudioHealthy := true }

/-- The `AnalysisEngine` constructor. -/
def mkEngine (opts : Options) : State :=
  let s : State :=
    { objectives := opts.objectives
      systemPrompt := trimOrNone opts.systemPrompt
      maxEventsInPrompt := opts.maxEventsInPrompt.getD 12
      fallbackConfidenceBase := opts.fallbackConfidenceBase.getD (0.55 : ℚ)
      hasLmStudioAnalyzer := false
      lmStudioHealthy := false }
  if opts.hasLmStudioClient then attachLmStudioClient s else s

/-- `updateLmStudioClient`: attach a (new) client, or detach — which clears
both the analyzer reference and the health flag. -/
def updateLmStudioClient (s : State) (clientAttached : Bool) : State :=
  if clientAttached then attachLmStudioClient s
  else { s with hasLmStudioAnalyzer := false, lmStudioHealthy := false }

/-- `updateObjectives` (the heuristic analyzer shares this list in the
model). -/
def updateObjectives (s : State) (objectives : List String) : State :=
  { s with objectives := objectives }

/-- `updateSystemPrompt`. -/
def updateSystemPrompt (s : State) (prompt : Option String) : State :=
  { s with systemPrompt := trimOrNone prompt }

/-- The impure inputs of one `run` call: the clock, the heuristic analyzer's
random pool index, and what the inference client would reply (or throw) if
invoked. -/
structure RunEnv where
  now : ℤ
  rnd : Fin 5
  chat : Except String String

/-- `AnalysisEngine.run`: build the digest; when an analyzer is attached and
healthy, try inference — on failure flip the health latch and fall back with
the error, tagged `lmstudio-fallback`; when attached but unhealthy, fall
back (no error) tagged `lmstudio-fallback`; with no analyzer, fall back
tagged `local-fallback`.  Besides the insight and the updated state, the
result records whether the inference client was invoked. -/
def run (s : State) (ctx : AnalysisContext) (env : RunEnv) :
    StrategicInsight × State × Bool :=
  let stats := buildActivityStats ctx s.maxEventsInPrompt env.now
  if s.hasLmStudioAnalyzer ∧ s.lmStudioHealthy then
    match LmStudioAnalyzer.analyze env.chat ctx stats env.now with
    | .ok insight => (insight, s, true)
    | .error msg =>
      (HeuristicAnalyzer.analyze s.objectives s.fallbackConfidenceBase ctx stats
          ⟨"lmstudio-fallback", some msg⟩ env.now env.rnd,
        { s with lmStudioHealthy := false }, true)
  else
    let source := if s.hasLmStudioAnalyzer then "lmstudio-fallback" else "local-fallback"
    (HeuristicAnalyzer.analyze s.objectives s.fallbackConfidenceBase ctx stats
        ⟨source, none⟩ env.now env.rnd,
      s, false)

end AnalysisEngine

/-! ## Supporting lemmas -/

theorem jget_heur_source (objectives : List String) (base : ℚ) (ctx : AnalysisContext)
    (stats : ActivityStats) (meta : HeuristicAnalyzer.Meta) (now : ℤ) (rnd : Fin 5) :
    jget ((HeuristicAnalyzer.analyze objectives base ctx stats meta now rnd).metadata.getD [])
        "source" =
      some (.str meta.source) := by
  cases meta with
  | mk source error =>
    cases error <;> simp [HeuristicAnalyzer.analyze, jget, List.find?]

theorem jget_heur_errorMessage (objectives : List String) (base : ℚ) (ctx : AnalysisContext)
    (stats : ActivityStats) (meta : HeuristicAnalyzer.Meta) (now : ℤ) (rnd : Fin 5) :
    jget ((HeuristicAnalyzer.analyze objectives base ctx stats meta now rnd).metadata.getD [])
        "errorMessage" =
      meta.error.map JVal.str := by
  cases meta with
  | mk source error =>
    cases error <;> simp [HeuristicAnalyzer.analyze, jget, List.find?]

theorem heur_confidence (objectives : List String) (base : ℚ) (ctx : AnalysisContext)
    (stats : ActivityStats) (meta : HeuristicAnalyzer.Meta) (now : ℤ) (rnd : Fin 5) :
    (HeuristicAnalyzer.analyze objectives base ctx stats meta now rnd).confidence =
      HeuristicAnalyzer.estimateConfidence base stats.changeCount stats.saveCount := rfl

theorem heur_actions (objectives : List String) (base : ℚ) (ctx : AnalysisContext)
    (stats : ActivityStats) (meta : HeuristicAnalyzer.Meta) (now : ℤ) (rnd : Fin 5) :
    (HeuristicAnalyzer.analyze objectives base ctx stats meta now rnd).actions =
      HeuristicAnalyzer.deriveActions stats.changeCount stats.saveCount
        (HeuristicAnalyzer.pickObjective objectives stats.files.length stats.languages.length
          now) := rfl

namespace AnalysisEngine

theorem run_of_unhealthy (s : State) (ctx : AnalysisContext) (env : RunEnv)
    (h1 : s.hasLmStudioAnalyzer = true) (h2 : s.lmStudioHealthy = false) :
    run s ctx env =
      (HeuristicAnalyzer.analyze s.objectives s.fallbackConfidenceBase ctx
          (buildActivityStats ctx s.maxEventsInPrompt env.now) ⟨"lmstudio-fallback", none⟩
          env.now env.rnd,
        s, false) := by
  simp [run, h1, h2]

theorem run_of_noclient (s : State) (ctx : AnalysisContext) (env : RunEnv)
    (h1 : s.hasLmStudioAnalyzer = false) :
    run s ctx env =
      (HeuristicAnalyzer.analyze s.objectives s.fallbackConfidenceBase ctx
          (buildActivityStats ctx s.maxEventsInPrompt env.now) ⟨"local-fallback", none⟩
          env.now env.rnd,
        s, false) := by
  simp [run, h1]

theorem run_of_failure (s : State) (ctx : AnalysisContext) (env : RunEnv) (msg : String)
    (h1 : s.hasLmStudioAnalyzer = true) (h2 : s.lmStudioHealthy = true)
    (hfail :
      LmStudioAnalyzer.analyze env.chat ctx (buildActivityStats ctx s.maxEventsInPrompt env.now)
          env.now =
        .error msg) :
    run s ctx env =
      (HeuristicAnalyzer.analyze s.objectives s.fallbackConfidenceBase ctx
          (buildActivityStats ctx s.maxEventsInPrompt env.now) ⟨"lmstudio-fallback", some msg⟩
          env.now env.rnd,
        { s with lmStudioHealthy := false }, true) := by
  simp [run, h1, h2, hfail]

theorem run_of_success (s : State) (ctx : AnalysisContext) (env : RunEnv)
    (insight : StrategicInsight)
    (h1 : s.hasLmStudioAnalyzer = true) (h2 : s.lmStudioHealthy = true)
    (hok :
      LmStudioAnalyzer.analyze env.chat ctx (buildActivityStats ctx s.maxEventsInPrompt env.now)
          env.now =
        .ok insight) :
    run s ctx env = (insight, s, true) := by
  simp [run, h1, h2, hok]

end AnalysisEngine

theorem lm_analyze_ok_inv (ch : Except String String) (ctx : AnalysisContext)
    (stats : ActivityStats) (now : ℤ) (i : StrategicInsight)
    (h : LmStudioAnalyzer.analyze ch ctx stats now = .ok i) :
    ∃ resp p, ch = Except.ok resp ∧
      LmStudioAnalyzer.parseHarmonyResponse resp = Except.ok p ∧
      i.confidence = p.confidence ∧
      i.actions =
        (if p.actions.isEmpty then
          LmStudioAnalyzer.fallbackActions stats.changeCount stats.saveCount ctx.objectives
        else p.actions) ∧
      jget (i.metadata.getD []) "source" = some (.str "lmstudio") := by
  cases ch with
  | error e => simp [LmStudioAnalyzer.analyze] at h
  | ok resp =>
    cases hp : LmStudioAnalyzer.parseHarmonyResponse resp with
    | error e => simp [LmStudioAnalyzer.analyze, hp] at h
    | ok p =>
      refine ⟨resp, p, rfl, hp, ?_⟩
      simp [LmStudioAnalyzer.analyze, hp] at h
      subst h
      cases p.reasoning <;> simp [jget, List.find?]

/-- **C1** (health latch).  For an orchestrator state with an analyzer
attached and `healthy = true`, a failing inference path flips `healthy` to
`false`; while an analyzer is attached and `healthy = false`, `run` returns a
fallback insight tagged `"lmstudio-fallback"` (the source's name for the
spec's *inference-fallback* tag) without invoking the client and without
changing the state (so the latch persists across subsequent `run` calls); no
`run` call ever restores `healthy`; `updateLmStudioClient` with a client
(`attachClient`) always re-initializes `healthy = true`, and with none it
clears both the analyzer reference and the health flag. -/
theorem c1_health_latch (s : AnalysisEngine.State) (ctx : AnalysisContext)
    (env : AnalysisEngine.RunEnv) :
    (s.hasLmStudioAnalyzer = true → s.lmStudioHealthy = true → ∀ msg,
      LmStudioAnalyzer.analyze env.chat ctx (buildActivityStats ctx s.maxEventsInPrompt env.now)
          env.now = .error msg →
      (AnalysisEngine.run s ctx env).2.1.lmStudioHealthy = false) ∧
    (s.hasLmStudioAnalyzer = true → s.lmStudioHealthy = false →
      jget ((AnalysisEngine.run s ctx env).1.metadata.getD []) "source" =
          some (.str "lmstudio-fallback") ∧
      (AnalysisEngine.run s ctx env).2.2 = false ∧
      (AnalysisEngine.run s ctx env).2.1 = s) ∧
    (s.lmStudioHealthy = false →
      (AnalysisEngine.run s ctx env).2.1.lmStudioHealthy = false) ∧
    ((AnalysisEngine.updateLmStudioClient s true).lmStudioHealthy = true ∧
      (AnalysisEngine.updateLmStudioClient s true).hasLmStudioAnalyzer = true) ∧
    ((AnalysisEngine.updateLmStudioClient s false).lmStudioHealthy = false ∧
      (AnalysisEngine.updateLmStudioClient s false).hasLmStudioAnalyzer = false) := by
  refine ⟨?_, ?_, ?_, ?_, ?_⟩
  · intro h1 h2 msg hfail
    rw [AnalysisEngine.run_of_failure s ctx env msg h1 h2 hfail]
  · intro h1 h2
    rw [AnalysisEngine.run_of_unhealthy s ctx env h1 h2]
    exact ⟨jget_heur_source _ _ _ _ _ _ _, rfl, rfl⟩
  · intro h2
    cases h1 : s.hasLmStudioAnalyzer with
    | true => rw [AnalysisEngine.run_of_unhealthy s ctx env h1 h2]; exact h2
    | false => rw [AnalysisEngine.run_of_noclient s ctx env h1]; exact h2
  · exact ⟨rfl, rfl⟩
  · exact ⟨rfl, rfl⟩

/-- A healthy orchestrator state with an attached analyzer, for witnesses. -/
def healthyEngine : AnalysisEngine.State :=
  { objectives := ["o"], systemPrompt := none, maxEventsInPrompt := 12,
    fallbackConfidenceBase := 0.55, hasLmStudioAnalyzer := true, lmStudioHealthy := true }

/-- The latched (known-unhealthy) counterpart. -/
def latchedEngine : AnalysisEngine.State :=
  { healthyEngine with lmStudioHealthy := false }

/-- A minimal analysis request, for witnesses. -/
def wCtx : AnalysisContext :=
  { events := [], objectives := ["o"], reason := "manual" }

/-- A run environment whose inference client throws. -/
def wEnvFail : AnalysisEngine.RunEnv :=
  { now := 0, rnd := 0, chat := .error "boom" }

theorem c1_health_latch_witness :
    ((AnalysisEngine.run healthyEngine wCtx wEnvFail).2.1.lmStudioHealthy = false) ∧
    (jget ((AnalysisEngine.run latchedEngine wCtx wEnvFail).1.metadata.getD []) "source" =
        some (.str "lmstudio-fallback") ∧
      (AnalysisEngine.run latchedEngine wCtx wEnvFail).2.2 = false ∧
      (AnalysisEngine.run latchedEngine wCtx wEnvFail).2.1 = latchedEngine) ∧
    ((AnalysisEngine.updateLmStudioClient latchedEngine true).lmStudioHealthy = true) := by
  refine ⟨(c1_health_latch healthyEngine wCtx wEnvFail).1 rfl rfl "boom" rfl,
    (c1_health_latch latchedEngine wCtx wEnvFail).2.1 rfl rfl,
    (c1_health_latch latchedEngine wCtx wEnvFail).2.2.2.1.1⟩

/-- **C2** (totality and fallback conversion).  `run` is a total function of
the embedding (it always returns an insight); its insight always carries a
provenance `source` tag; with no client attached it is `"local-fallback"`
with no `errorMessage`; on the round where the inference path fails it is
`"lmstudio-fallback"` with `errorMessage` equal to the triggering error's
message text; on later (latched) rounds it is `"lmstudio-fallback"` with no
`errorMessage`. -/
theorem c2_run_never_throws (s : AnalysisEngine.State) (ctx : AnalysisContext)
    (env : AnalysisEngine.RunEnv) :
    (∃ src, jget ((AnalysisEngine.run s ctx env).1.metadata.getD []) "source" =
        some (.str src)) ∧
    (s.hasLmStudioAnalyzer = false →
      jget ((AnalysisEngine.run s ctx env).1.metadata.getD []) "source" =
          some (.str "local-fallback") ∧
      jget ((AnalysisEngine.run s ctx env).1.metadata.getD []) "errorMessage" = none) ∧
    (s.hasLmStudioAnalyzer = true → s.lmStudioHealthy = true → ∀ msg,
      LmStudioAnalyzer.analyze env.chat ctx (buildActivityStats ctx s.maxEventsInPrompt env.now)
          env.now = .error msg →
      jget ((AnalysisEngine.run s ctx env).1.metadata.getD []) "source" =
          some (.str "lmstudio-fallback") ∧
      jget ((AnalysisEngine.run s ctx env).1.metadata.getD []) "errorMessage" =
          some (.str msg)) ∧
    (s.hasLmStudioAnalyzer = true → s.lmStudioHealthy = false →
      jget ((AnalysisEngine.run s ctx env).1.metadata.getD []) "source" =
          some (.str "lmstudio-fallback") ∧
      jget ((AnalysisEngine.run s ctx env).1.metadata.getD []) "errorMessage" = none) := by
  refine ⟨?_, ?_, ?_, ?_⟩
  · cases h1 : s.hasLmStudioAnalyzer with
    | false =>
      rw [AnalysisEngine.run_of_noclient s ctx env h1]
      exact ⟨_, jget_heur_source _ _ _ _ _ _ _⟩
    | true =>
      cases h2 : s.lmStudioHealthy with
      | false =>
        rw [AnalysisEngine.run_of_unhealthy s ctx env h1 h2]
        exact ⟨_, jget_heur_source _ _ _ _ _ _ _⟩
      | true =>
        cases hres : LmStudioAnalyzer.analyze env.chat ctx
            (buildActivityStats ctx s.maxEventsInPrompt env.now) env.now with
        | error msg =>
          rw [AnalysisEngine.run_of_failure s ctx env msg h1 h2 hres]
          exact ⟨_, jget_heur_source _ _ _ _ _ _ _⟩
        | ok insight =>
          rw [AnalysisEngine.run_of_success s ctx env insight h1 h2 hres]
          obtain ⟨resp, p, -, -, -, -, hsrc⟩ := lm_analyze_ok_inv _ _ _ _ _ hres
          exact ⟨_, hsrc⟩
  · intro h1
    rw [AnalysisEngine.run_of_noclient s ctx env h1]
    exact ⟨jget_heur_source _ _ _ _ _ _ _, jget_heur_errorMessage _ _ _ _ _ _ _⟩
  · intro h1 h2 msg hfail
    rw [AnalysisEngine.run_of_failure s ctx env msg h1 h2 hfail]
    exact ⟨jget_heur_source _ _ _ _ _ _ _, jget_heur_errorMessage _ _ _ _ _ _ _⟩
  · intro h1 h2
    rw [AnalysisEngine.run_of_unhealthy s ctx env h1 h2]
    exact ⟨jget_heur_source _ _ _ _ _ _ _, jget_heur_errorMessage _ _ _ _ _ _ _⟩

/-- An engine with no client attached, for witnesses. -/
def noClientEngine : AnalysisEngine.State :=
  AnalysisEngine.mkEngine { objectives := ["o"] }

theorem c2_run_never_throws_witness :
    (jget ((AnalysisEngine.run noClientEngine wCtx wEnvFail).1.metadata.getD []) "source" =
        some (.str "local-fallback") ∧
      jget ((AnalysisEngine.run noClientEngine wCtx wEnvFail).1.metadata.getD [])
          "errorMessage" = none) ∧
    (jget ((AnalysisEngine.run healthyEngine wCtx wEnvFail).1.metadata.getD []) "source" =
        some (.str "lmstudio-fallback") ∧
      jget ((AnalysisEngine.run healthyEngine wCtx wEnvFail).1.metadata.getD [])
          "errorMessage" = some (.str "boom")) := by
  exact ⟨(c2_run_never_throws noClientEngine wCtx wEnvFail).2.1 rfl,
    (c2_run_never_throws healthyEngine wCtx wEnvFail).2.2.1 rfl rfl "boom" rfl⟩

theorem round2_mono {a b : ℚ} (h : a ≤ b) : round2 a ≤ round2 b := by
  unfold round2
  have hr : round (a * 100) ≤ round (b * 100) := by
    rw [round_eq, round_eq]
    exact Int.floor_le_floor (by linarith)
  have hc : ((round (a * 100) : ℤ) : ℚ) ≤ ((round (b * 100) : ℤ) : ℚ) := Int.cast_le.mpr hr
  linarith

theorem round2_005 : round2 (0.05 : ℚ) = 0.05 := by
  unfold round2
  rw [show (0.05 : ℚ) * 100 = 5 by norm_num]
  rw [show round (5 : ℚ) = 5 from round_ofNat 5]
  norm_num

theorem round2_099 : round2 (0.99 : ℚ) = 0.99 := by
  unfold round2
  rw [show (0.99 : ℚ) * 100 = 99 by norm_num]
  rw [show round (99 : ℚ) = 99 from round_ofNat 99]
  norm_num

theorem normalizeConfidence_mem (v : Option JVal) :
    (0.05 : ℚ) ≤ LmStudioAnalyzer.normalizeConfidence v ∧
    LmStudioAnalyzer.normalizeConfidence v ≤ 0.99 ∧
    ∃ k : ℤ, LmStudioAnalyzer.normalizeConfidence v = (k : ℚ) / 100 := by
  unfold LmStudioAnalyzer.normalizeConfidence
  cases hj : jsNumber v with
  | none =>
    refine ⟨by norm_num, by norm_num, 70, by norm_num⟩
  | some q =>
    have h1 : (0.05 : ℚ) ≤ min (0.99 : ℚ) (max (0.05 : ℚ) q) :=
      le_min (by norm_num) (le_max_left _ _)
    have h2 : min (0.99 : ℚ) (max (0.05 : ℚ) q) ≤ 0.99 := min_le_left _ _
    have hlo := round2_mono h1
    have hhi := round2_mono h2
    rw [round2_005] at hlo
    rw [round2_099] at hhi
    exact ⟨hlo, hhi, _, rfl⟩

theorem estimateConfidence_mem (base : ℚ) (c s : ℕ) (hbase : (0.05 : ℚ) ≤ base) :
    (0.05 : ℚ) ≤ HeuristicAnalyzer.estimateConfidence base c s ∧
    HeuristicAnalyzer.estimateConfidence base c s ≤ (0.9 : ℚ) ∧
    ∃ k : ℤ, HeuristicAnalyzer.estimateConfidence base c s = (k : ℚ) / 100 := by
  unfold HeuristicAnalyzer.estimateConfidence
  have hmod0 : (0 : ℚ) ≤ min (0.35 : ℚ) (((c : ℚ) + (s : ℚ)) * 0.03) :=
    le_min (by norm_num) (by positivity)
  have h05 : (0.05 : ℚ) ≤ base + min (0.35 : ℚ) (((c : ℚ) + (s : ℚ)) * 0.03) := by linarith
  have hr : (0.05 : ℚ) ≤ round2 (base + min (0.35 : ℚ) (((c : ℚ) + (s : ℚ)) * 0.03)) := by
    have := round2_mono h05
    rwa [round2_005] at this
  refine ⟨le_min (by norm_num) hr, min_le_left _ _, ?_⟩
  rcases le_total (0.9 : ℚ) (round2 (base + min (0.35 : ℚ) (((c : ℚ) + (s : ℚ)) * 0.03)))
    with hle | hle
  · exact ⟨90, by rw [min_eq_left hle]; norm_num⟩
  · exact ⟨round ((base + min (0.35 : ℚ) (((c : ℚ) + (s : ℚ)) * 0.03)) * 100),
      by rw [min_eq_right hle]; rfl⟩

theorem deriveActions_len (c s : ℕ) (o : String) :
    (HeuristicAnalyzer.deriveActions c s o).length ≤ 2 := by
  unfold HeuristicAnalyzer.deriveActions
  split <;> split <;> simp

theorem fallbackActions_len (c s : ℕ) (objs : List String) :
    (LmStudioAnalyzer.fallbackActions c s objs).length ≤ 2 := by
  unfold LmStudioAnalyzer.fallbackActions
  split <;> split <;> simp

theorem parse_ok_shape (raw : String) (p : LmStudioAnalyzer.HarmonyPayload)
    (h : LmStudioAnalyzer.parseHarmonyResponse raw = .ok p) :
    (∃ v, p.confidence = LmStudioAnalyzer.normalizeConfidence v) ∧ p.actions.length ≤ 4 := by
  simp only [LmStudioAnalyzer.parseHarmonyResponse] at h
  repeat' split at h
  all_goals simp only [Except.ok.injEq, reduceCtorEq] at h
  all_goals subst h
  all_goals refine ⟨⟨_, rfl⟩, ?_⟩
  all_goals dsimp only
  all_goals simp only [List.length_take, List.length_nil]
  all_goals omega

/-- The orchestrator configured with a `fallbackConfidenceBase` below the
claimed lower bound. -/
def lowBaseEngine : AnalysisEngine.State :=
  AnalysisEngine.mkEngine { objectives := ["o"], fallbackConfidenceBase := some 0.01 }

/-- **C3** (counterexample).  The claim quantifies over *every* engine
configuration "including any configured fallbackConfidenceBase"; with
`fallbackConfidenceBase = 0.01` and an idle request, `run` returns
confidence `0.01 < 0.05`, outside the claimed interval. -/
theorem c3_counterexample :
    (AnalysisEngine.run lowBaseEngine wCtx wEnvFail).1.confidence = 1 / 100 ∧
    ¬ ((0.05 : ℚ) ≤ (AnalysisEngine.run lowBaseEngine wCtx wEnvFail).1.confidence) := by
  have h : (AnalysisEngine.run lowBaseEngine wCtx wEnvFail).1.confidence =
      HeuristicAnalyzer.estimateConfidence (0.01 : ℚ) 0 0 := by
    rw [AnalysisEngine.run_of_noclient lowBaseEngine wCtx wEnvFail rfl, heur_confidence]
    rfl
  have he : HeuristicAnalyzer.estimateConfidence (0.01 : ℚ) 0 0 = 1 / 100 := by
    have h1 : min (0.35 : ℚ) ((((0 : ℕ) : ℚ) + ((0 : ℕ) : ℚ)) * 0.03) = 0 := by norm_num
    unfold HeuristicAnalyzer.estimateConfidence round2
    simp only [h1]
    rw [show ((0.01 : ℚ) + 0) * 100 = 1 by norm_num]
    rw [show round (1 : ℚ) = 1 from round_one]
    norm_num
  rw [h, he]
  norm_num

/-- **C3** (amended).  Provided the configured `fallbackConfidenceBase` is at
least `0.05` (the default is `0.55`), every insight returned by `run` has a
confidence in `[0.05, 0.99]`, equal to an integer number of hundredths
(two-decimal rounding), and at most 4 actions.  The inference path satisfies
the bounds for every configuration; only the heuristic path needs the bound
on the base, as the counterexample shows. -/
theorem c3_amended (s : AnalysisEngine.State) (ctx : AnalysisContext)
    (env : AnalysisEngine.RunEnv) (hbase : (0.05 : ℚ) ≤ s.fallbackConfidenceBase) :
    ((0.05 : ℚ) ≤ (AnalysisEngine.run s ctx env).1.confidence ∧
      (AnalysisEngine.run s ctx env).1.confidence ≤ 0.99) ∧
    (∃ k : ℤ, (AnalysisEngine.run s ctx env).1.confidence = (k : ℚ) / 100) ∧
    (AnalysisEngine.run s ctx env).1.actions.length ≤ 4 := by
  have heur :
      ∀ meta : HeuristicAnalyzer.Meta, ∀ stats : ActivityStats,
        ((0.05 : ℚ) ≤ (HeuristicAnalyzer.analyze s.objectives s.fallbackConfidenceBase ctx
              stats meta env.now env.rnd).confidence ∧
          (HeuristicAnalyzer.analyze s.objectives s.fallbackConfidenceBase ctx stats meta
              env.now env.rnd).confidence ≤ 0.99) ∧
        (∃ k : ℤ,
          (HeuristicAnalyzer.analyze s.objectives s.fallbackConfidenceBase ctx stats meta
              env.now env.rnd).confidence = (k : ℚ) / 100) ∧
        (HeuristicAnalyzer.analyze s.objectives s.fallbackConfidenceBase ctx stats meta
            env.now env.rnd).actions.length ≤ 4 := by
    intro meta stats
    obtain ⟨hlo, hhi, k, hk⟩ :=
      estimateConfidence_mem s.fallbackConfidenceBase stats.changeCount stats.saveCount hbase
    refine ⟨⟨?_, ?_⟩, ⟨k, ?_⟩, ?_⟩
    · rw [heur_confidence]; exact hlo
    · rw [heur_confidence]; exact le_trans hhi (by norm_num)
    · rw [heur_confidence]; exact hk
    · rw [heur_actions]; exact le_trans (deriveActions_len _ _ _) (by norm_num)
  cases h1 : s.hasLmStudioAnalyzer with
  | false => rw [AnalysisEngine.run_of_noclient s ctx env h1]; exact heur _ _
  | true =>
    cases h2 : s.lmStudioHealthy with
    | false => rw [AnalysisEngine.run_of_unhealthy s ctx env h1 h2]; exact heur _ _
    | true =>
      cases hres : LmStudioAnalyzer.analyze env.chat ctx
          (buildActivityStats ctx s.maxEventsInPrompt env.now) env.now with
      | error msg =>
        rw [AnalysisEngine.run_of_failure s ctx env msg h1 h2 hres]; exact heur _ _
      | ok insight =>
        rw [AnalysisEngine.run_of_success s ctx env insight h1 h2 hres]
        obtain ⟨resp, p, -, hp, hconf, hact, -⟩ := lm_analyze_ok_inv _ _ _ _ _ hres
        obtain ⟨⟨v, hv⟩, hlen⟩ := parse_ok_shape resp p hp
        obtain ⟨hlo, hhi, k, hk⟩ := normalizeConfidence_mem v
        refine ⟨⟨?_, ?_⟩, ⟨k, ?_⟩, ?_⟩
        · rw [hconf, hv]; exact hlo
        · rw [hconf, hv]; exact hhi
        · rw [hconf, hv]; exact hk
        · rw [hact]
          split
          · exact le_trans (fallbackActions_len _ _ _) (by norm_num)
          · exact hlen

theorem c3_amended_witness :
    (0.05 : ℚ) ≤ noClientEngine.fallbackConfidenceBase ∧
    ((0.05 : ℚ) ≤ (AnalysisEngine.run noClientEngine wCtx wEnvFail).1.confidence ∧
      (AnalysisEngine.run noClientEngine wCtx wEnvFail).1.confidence ≤ 0.99) ∧
    (AnalysisEngine.run noClientEngine wCtx wEnvFail).1.actions.length ≤ 4 := by
  have hbase : (0.05 : ℚ) ≤ noClientEngine.fallbackConfidenceBase := by norm_num [noClientEngine, AnalysisEngine.mkEngine]
  obtain ⟨hb, -, hlen⟩ := c3_amended noClientEngine wCtx wEnvFail hbase
  exact ⟨hbase, hb, hlen⟩



theorem find_map_replace (m : List (String × JVal)) (k : String) (v : JVal) :
    m.any (fun p => p.1 = k) = true →
    (m.map (fun p => if p.1 = k then (k, v) else p)).find? (fun p => decide (p.1 = k)) =
      some (k, v) := by
  induction m with
  | nil => intro h; simp at h
  | cons p rest ih =>
    intro h
    rw [List.map_cons]
    by_cases hk : p.1 = k
    · rw [if_pos hk]
      exact List.find?_cons_of_pos _ (by simp)
    · rw [if_neg hk]
      rw [List.find?_cons_of_neg _ (by simp [hk])]
      refine ih ?_
      simp only [List.any_cons] at h
      simpa [hk] using h

theorem find_append_single (m : List (String × JVal)) (k : String) (v : JVal) :
    m.any (fun p => p.1 = k) = false →
    (m ++ [(k, v)]).find? (fun p => decide (p.1 = k)) = some (k, v) := by
  induction m with
  | nil => intro h; exact List.find?_cons_of_pos _ (by simp)
  | cons p rest ih =>
    intro h
    simp only [List.any_cons, Bool.or_eq_false_iff, decide_eq_false_iff_not] at h
    rw [List.cons_append, List.find?_cons_of_neg _ (by simp [h.1])]
    exact ih (by simp [h.2])

theorem jget_mUpdate_self (m : InsightStore.Memento) (k : String) (v : JVal) :
    jget (InsightStore.mUpdate m k v) k = some v := by
  unfold InsightStore.mUpdate jget
  split
  · rename_i hany
    rw [find_map_replace m k v hany]
    rfl
  · rename_i hany
    rw [find_append_single m k v (Bool.not_eq_true _ ▸ hany)]
    rfl

theorem find_map_replace_other (m : List (String × JVal)) (k k' : String) (v : JVal)
    (h : ¬ k = k') :
    ((m.map (fun p => if p.1 = k' then (k', v) else p)).find?
        (fun p => decide (p.1 = k))).map Prod.snd =
      (m.find? (fun p => decide (p.1 = k))).map Prod.snd := by
  induction m with
  | nil => simp
  | cons p rest ih =>
    rw [List.map_cons]
    by_cases hk' : p.1 = k'
    · rw [if_pos hk']
      rw [List.find?_cons_of_neg _ (by simp; exact fun hkk => h hkk.symm)]
      rw [List.find?_cons_of_neg _ (by simp [hk']; exact fun hkk => h hkk.symm)]
      exact ih
    · rw [if_neg hk']
      by_cases hpk : p.1 = k
      · rw [List.find?_cons_of_pos _ (by simp [hpk]), List.find?_cons_of_pos _ (by simp [hpk])]
      · rw [List.find?_cons_of_neg _ (by simp [hpk]), List.find?_cons_of_neg _ (by simp [hpk])]
        exact ih

theorem find_append_single_other (m : List (String × JVal)) (k k' : String) (v : JVal)
    (h : ¬ k = k') :
    ((m ++ [(k', v)]).find? (fun p => decide (p.1 = k))).map Prod.snd =
      (m.find? (fun p => decide (p.1 = k))).map Prod.snd := by
  induction m with
  | nil =>
    rw [List.nil_append, List.find?_cons_of_neg _ (by simp; exact fun hkk => h hkk.symm)]
  | cons p rest ih =>
    rw [List.cons_append]
    by_cases hpk : p.1 = k
    · rw [List.find?_cons_of_pos _ (by simp [hpk]), List.find?_cons_of_pos _ (by simp [hpk])]
    · rw [List.find?_cons_of_neg _ (by simp [hpk]), List.find?_cons_of_neg _ (by simp [hpk])]
      exact ih

theorem jget_mUpdate_other (m : InsightStore.Memento) (k k' : String) (v : JVal)
    (h : ¬ k = k') :
    jget (InsightStore.mUpdate m k' v) k = jget m k := by
  unfold InsightStore.mUpdate jget
  split
  · exact find_map_replace_other m k k' v h
  · exact find_append_single_other m k k' v h

theorem map_cloneInsight (l : List StrategicInsight) :
    l.map InsightStore.cloneInsight = l := by
  induction l with
  | nil => rfl
  | cons a t ih => simp [InsightStore.cloneInsight_eq, ih]

theorem setLatest_history (s : InsightStore.State) (i : StrategicInsight) :
    (InsightStore.setLatest s i).history = (i :: s.history).take s.maxHistoryItems := by
  unfold InsightStore.setLatest InsightStore.recordTelemetry InsightStore.persist
    InsightStore.persistHistory InsightStore.persistTelemetry InsightStore.persistTelemetryWith
  simp only [InsightStore.cloneInsight_eq, map_cloneInsight]
  cases s.storage <;>
    · dsimp only
      split
      · rfl
      · rename_i hlen
        rw [List.take_of_length_le (by omega)]

theorem setLatest_latest (s : InsightStore.State) (i : StrategicInsight) :
    (InsightStore.setLatest s i).latest = some i := by
  unfold InsightStore.setLatest InsightStore.recordTelemetry InsightStore.persist
    InsightStore.persistHistory InsightStore.persistTelemetry InsightStore.persistTelemetryWith
  simp only [InsightStore.cloneInsight_eq, map_cloneInsight]
  cases s.storage <;> dsimp only

theorem setLatest_storage (s : InsightStore.State) (i : StrategicInsight)
    (m : InsightStore.Memento) (hm : s.storage = some m)
    (hkeys : ¬ s.storageKey = s.telemetryStorageKey) :
    InsightStore.mGet ((InsightStore.setLatest s i).storage.getD []) s.storageKey =
      some (.arr (((i :: s.history).take s.maxHistoryItems).map InsightStore.encodeInsight)) := by
  unfold InsightStore.setLatest InsightStore.recordTelemetry InsightStore.persist
    InsightStore.persistHistory InsightStore.persistTelemetry InsightStore.persistTelemetryWith
  simp only [InsightStore.cloneInsight_eq, map_cloneInsight, hm]
  unfold InsightStore.mGet
  simp only [Option.getD_some]
  rw [jget_mUpdate_other _ _ _ _ hkeys, jget_mUpdate_self]
  split
  · rfl
  · rename_i hlen
    rw [List.take_of_length_le (by omega)]

/-- A small concrete insight for the store scenarios. -/
def wInsight (n : String) (t : ℚ) : StrategicInsight :=
  { id := n, summary := "Summary for " ++ n, confidence := 1,
    actions := ["Review key changes"], timestamp := t, metadata := none }

/-- The store of the spec's scenario: `maxHistoryItems = 2`, empty attached
storage, then `setLatest` three times. -/
def wStore3 : InsightStore.State :=
  InsightStore.setLatest
    (InsightStore.setLatest
      (InsightStore.setLatest
        (InsightStore.mkStore { storage := some [], maxHistoryItems := some 2 })
        (wInsight "first" 1))
      (wInsight "second" 2))
    (wInsight "third" 3)

/-- **C4** (bounded most-recent-first history).  `setLatest` always leaves the
history equal to the new insight prepended to the old history, truncated to
`maxHistoryItems` (hence bounded by the cap and ordered strictly
most-recent-first), and — when distinct storage keys are configured, as the
defaults are — the storage collaborator's history key holds exactly the
serialized truncated history.  In the spec's concrete scenario
(`maxHistoryItems = 2`, three `setLatest` calls) the history is
`[third, second]` and the storage key holds exactly those two entries in
that order. -/
theorem c4_history_bounded (s : InsightStore.State) (i : StrategicInsight)
    (m : InsightStore.Memento) (hm : s.storage = some m)
    (hkeys : ¬ s.storageKey = s.telemetryStorageKey) :
    (InsightStore.setLatest s i).history = (i :: s.history).take s.maxHistoryItems ∧
    (InsightStore.setLatest s i).history.length ≤ s.maxHistoryItems ∧
    InsightStore.mGet ((InsightStore.setLatest s i).storage.getD []) s.storageKey =
      some (.arr (((i :: s.history).take s.maxHistoryItems).map InsightStore.encodeInsight)) ∧
    InsightStore.getHistory wStore3 = [wInsight "third" 3, wInsight "second" 2] ∧
    InsightStore.mGet (wStore3.storage.getD []) "codeObserver.insightHistory" =
      some (.arr [InsightStore.encodeInsight (wInsight "third" 3),
        InsightStore.encodeInsight (wInsight "second" 2)]) := by
  refine ⟨setLatest_history s i, ?_, setLatest_storage s i m hm hkeys, rfl, rfl⟩
  rw [setLatest_history s i]
  simp [List.length_take]

theorem c4_history_bounded_witness :
    (InsightStore.setLatest (InsightStore.mkStore { storage := some [] })
        (wInsight "w" 1)).history =
      (wInsight "w" 1 ::
          (InsightStore.mkStore { storage := some [] }).history).take
        (InsightStore.mkStore { storage := some [] }).maxHistoryItems ∧
    InsightStore.getHistory wStore3 = [wInsight "third" 3, wInsight "second" 2] := by
  have h := c4_history_bounded (InsightStore.mkStore { storage := some [] }) (wInsight "w" 1)
    [] rfl (by decide)
  exact ⟨h.1, h.2.2.2.1⟩

theorem jget_sanitize_rawResponse (m : List (String × JVal)) :
    jget (InsightStore.sanitizeMetadataForExport m) "rawResponse" = none := by
  induction m with
  | nil => rfl
  | cons p rest ih =>
    obtain ⟨k, v⟩ := p
    unfold InsightStore.sanitizeMetadataForExport at ih ⊢
    rw [List.filterMap_cons]
    by_cases hraw : k = "rawResponse"
    · rw [if_pos (show (k, v).1 = "rawResponse" from hraw)]
      exact ih
    · rw [if_neg (show ¬ (k, v).1 = "rawResponse" from hraw)]
      by_cases hfiles : k = "files"
      · subst hfiles
        rw [if_pos rfl]
        cases v with
        | arr l =>
          dsimp only
          unfold jget
          rw [List.find?_cons_of_neg _ (by simp)]
          exact ih
        | null =>
          dsimp only
          unfold jget
          rw [List.find?_cons_of_neg _ (by simp)]
          exact ih
        | bool b =>
          dsimp only
          unfold jget
          rw [List.find?_cons_of_neg _ (by simp)]
          exact ih
        | num q =>
          dsimp only
          unfold jget
          rw [List.find?_cons_of_neg _ (by simp)]
          exact ih
        | str t =>
          dsimp only
          unfold jget
          rw [List.find?_cons_of_neg _ (by simp)]
          exact ih
        | obj fs =>
          dsimp only
          unfold jget
          rw [List.find?_cons_of_neg _ (by simp)]
          exact ih
      · rw [if_neg (show ¬ (k, v).1 = "files" from hfiles)]
        dsimp only
        unfold jget
        rw [List.find?_cons_of_neg _ (by simp [hraw])]
        exact ih

theorem jget_sanitize_files (m : List (String × JVal)) (xs : List JVal)
    (h : jget m "files" = some (.arr xs)) :
    jget (InsightStore.sanitizeMetadataForExport m) "files" =
      some (.arr ((InsightStore.extractFileNames xs).map .str)) := by
  induction m with
  | nil => simp [jget] at h
  | cons p rest ih =>
    obtain ⟨k, v⟩ := p
    unfold InsightStore.sanitizeMetadataForExport at ih ⊢
    rw [List.filterMap_cons]
    by_cases hfiles : k = "files"
    · subst hfiles
      rw [if_neg (show ¬ ("files", v).1 = "rawResponse" by simp), if_pos rfl]
      unfold jget at h
      rw [List.find?_cons_of_pos _ (by simp)] at h
      have h2 : v = JVal.arr xs := by simpa using h
      rw [h2]
      dsimp only
      unfold jget
      rw [List.find?_cons_of_pos _ (by simp)]
      rfl
    · have hskip : jget rest "files" = some (.arr xs) := by
        unfold jget at h
        rwa [List.find?_cons_of_neg _ (by simp [hfiles])] at h
      by_cases hraw : k = "rawResponse"
      · rw [if_pos (show (k, v).1 = "rawResponse" from hraw)]
        exact ih hskip
      · rw [if_neg (show ¬ (k, v).1 = "rawResponse" from hraw),
          if_neg (show ¬ (k, v).1 = "files" from hfiles)]
        dsimp only
        unfold jget
        rw [List.find?_cons_of_neg _ (by simp [hfiles])]
        exact ih hskip

theorem extractFileNames_go_mem (xs : List JVal) :
    ∀ (acc : List String) (name : String),
      name ∈ xs.foldl
        (fun acc v =>
          match v with
          | .str s =>
            match InsightStore.extractFileName s with
            | some nm => if nm = "" then acc else if nm ∈ acc then acc else acc ++ [nm]
            | none => acc
          | _ => acc)
        acc →
      name ∈ acc ∨ ∃ u, JVal.str u ∈ xs ∧ InsightStore.extractFileName u = some name := by
  induction xs with
  | nil =>
    intro acc name h
    exact Or.inl h
  | cons v rest ih =>
    intro acc name h
    rw [List.foldl_cons] at h
    rcases ih _ name h with hacc | ⟨u, hu, hext⟩
    · cases v with
      | str s =>
        have hacc2 : name ∈
            (match InsightStore.extractFileName s with
             | some nm => if nm = "" then acc else if nm ∈ acc then acc else acc ++ [nm]
             | none => acc) := hacc
        cases hx : InsightStore.extractFileName s with
        | none =>
          rw [hx] at hacc2
          exact Or.inl hacc2
        | some nm =>
          have hacc3 : name ∈ (if nm = "" then acc else if nm ∈ acc then acc else acc ++ [nm]) := by
            rw [hx] at hacc2
            exact hacc2
          by_cases hnm : nm = ""
          · rw [if_pos hnm] at hacc3
            exact Or.inl hacc3
          · rw [if_neg hnm] at hacc3
            by_cases hmem : nm ∈ acc
            · rw [if_pos hmem] at hacc3
              exact Or.inl hacc3
            · rw [if_neg hmem] at hacc3
              rcases List.mem_append.mp hacc3 with hin | hsing
              · exact Or.inl hin
              · refine Or.inr ⟨s, List.mem_cons_self _ _, ?_⟩
                rw [hx, List.mem_singleton.mp hsing]
      | null => exact Or.inl hacc
      | bool b => exact Or.inl hacc
      | num q => exact Or.inl hacc
      | arr l => exact Or.inl hacc
      | obj l => exact Or.inl hacc
    · exact Or.inr ⟨u, List.mem_cons_of_mem _ hu, hext⟩

theorem extractFileNames_mem (xs : List JVal) (name : String)
    (h : name ∈ InsightStore.extractFileNames xs) :
    ∃ u, JVal.str u ∈ xs ∧ InsightStore.extractFileName u = some name := by
  rcases extractFileNames_go_mem xs [] name h with hin | hex
  · exact absurd hin (List.not_mem_nil _)
  · exact hex

theorem toStoredInsight_metadata (i : StrategicInsight) :
    (InsightStore.toStoredInsight i).metadata =
      i.metadata.map InsightStore.sanitizeMetadataForExport := by
  simp only [InsightStore.toStoredInsight, InsightStore.cloneInsight_eq]

/-- **C5** (sanitized export).  The export snapshot consists of the sanitized
history: no exported metadata contains a top-level `rawResponse` key, and an
array-valued `files` metadata entry is exported as the deduplicated bare
file names — each obtained from some string entry of the original array by
stripping the query string, taking the final path segment and
percent-decoding it; in particular `"file:///a/b/example.ts?hash=123"`
reduces to `"example.ts"`. -/
theorem c5_export_sanitized (s : InsightStore.State) (now : ℚ) :
    (InsightStore.getExportSnapshot s now).insights =
      s.history.map InsightStore.toStoredInsight ∧
    (∀ ins ∈ (InsightStore.getExportSnapshot s now).insights,
      jget (ins.metadata.getD []) "rawResponse" = none) ∧
    (∀ i ∈ s.history, ∀ md xs, i.metadata = some md → jget md "files" = some (.arr xs) →
      jget ((InsightStore.toStoredInsight i).metadata.getD []) "files" =
        some (.arr ((InsightStore.extractFileNames xs).map .str)) ∧
      ∀ name ∈ InsightStore.extractFileNames xs,
        ∃ u, JVal.str u ∈ xs ∧ InsightStore.extractFileName u = some name) ∧
    InsightStore.extractFileName "file:///a/b/example.ts?hash=123" = some "example.ts" := by
  refine ⟨rfl, ?_, ?_, by decide⟩
  · intro ins hins
    rw [show (InsightStore.getExportSnapshot s now).insights =
        s.history.map InsightStore.toStoredInsight from rfl] at hins
    obtain ⟨i, -, hi⟩ := List.mem_map.mp hins
    subst hi
    rw [toStoredInsight_metadata]
    cases i.metadata with
    | none => rfl
    | some md => exact jget_sanitize_rawResponse md
  · intro i hi md xs hmd hfiles
    constructor
    · rw [toStoredInsight_metadata, hmd]
      exact jget_sanitize_files md xs hfiles
    · intro name hname
      exact extractFileNames_mem xs name hname

/-- A store with one insight carrying `rawResponse` and a `files` array, for
the export witness. -/
def wExportInsight : StrategicInsight :=
  { id := "e", summary := "s", confidence := 1, actions := [], timestamp := 0,
    metadata := some
      [("source", .str "lmstudio"),
       ("files", .arr [.str "file:///a/b/example.ts?hash=123"]),
       ("rawResponse", .str "secret")] }

def wExportStore : InsightStore.State :=
  InsightStore.setLatest (InsightStore.mkStore {}) wExportInsight

theorem c5_export_sanitized_witness :
    jget ((InsightStore.toStoredInsight wExportInsight).metadata.getD []) "files" =
      some (.arr [.str "example.ts"]) ∧
    jget ((InsightStore.toStoredInsight wExportInsight).metadata.getD [])
      "rawResponse" = none := by
  have hmem : wExportInsight ∈ wExportStore.history := by
    rw [show wExportStore.history = [wExportInsight] from rfl]
    exact List.mem_cons_self _ _
  have h3 := (c5_export_sanitized wExportStore 0).2.2.1 wExportInsight hmem _ _ rfl rfl
  have h2 := (c5_export_sanitized wExportStore 0).2.1
    (InsightStore.toStoredInsight wExportInsight)
    (by
      rw [(c5_export_sanitized wExportStore 0).1]
      exact List.mem_map_of_mem _ hmem)
  exact ⟨h3.1, h2⟩

theorem lastIdxOf_spec (cs : List Char) (c : Char) (j : ℕ)
    (h : LmStudioAnalyzer.lastIdxOf cs c = some j) :
    j < cs.length ∧ cs[j]? = some c ∧ ∀ k, j < k → cs[k]? ≠ some c := by
  unfold LmStudioAnalyzer.lastIdxOf at h
  rw [Option.map_eq_some'] at h
  obtain ⟨k, hk, hj⟩ := h
  rw [List.findIdx?_eq_some_iff_getElem] at hk
  obtain ⟨hlt, hp, hmin⟩ := hk
  rw [List.length_reverse] at hlt
  have hrevlen : k < cs.reverse.length := by rw [List.length_reverse]; exact hlt
  have h1 : cs.reverse[k]? = some c := by
    rw [List.getElem?_eq_getElem hrevlen]
    simpa using hp
  have h2 : cs.reverse[k]? = cs[cs.length - 1 - k]? := List.getElem?_reverse hlt
  subst hj
  refine ⟨by omega, ?_, ?_⟩
  · rw [← h2, h1]
  · intro k2 hk2 hck2
    rw [List.getElem?_eq_some_iff] at hck2
    obtain ⟨hk2lt, hk2c⟩ := hck2
    have hrk : cs.length - 1 - k2 < k := by omega
    have := hmin (cs.length - 1 - k2) hrk
    rw [List.getElem_reverse (by rw [List.length_reverse]; omega)] at this
    have harith : cs.length - 1 - (cs.length - 1 - k2) = k2 := by omega
    simp only [harith] at this
    simp [hk2c] at this

theorem lastIdxOf_none (cs : List Char) (c : Char)
    (h : LmStudioAnalyzer.lastIdxOf cs c = none) :
    ∀ k : ℕ, cs[k]? ≠ some c := by
  unfold LmStudioAnalyzer.lastIdxOf at h
  rw [Option.map_eq_none'] at h
  rw [List.findIdx?_eq_none_iff] at h
  intro k hk
  rw [List.getElem?_eq_some_iff] at hk
  obtain ⟨hlt, hc⟩ := hk
  have hmem : c ∈ cs.reverse := by
    rw [List.mem_reverse]
    exact hc ▸ List.getElem_mem hlt
  have := h c hmem
  simp at this

theorem greedyJsonMatch_none_iff (s : String) :
    LmStudioAnalyzer.greedyJsonMatch s = none ↔
      ¬ ∃ i j : ℕ, i < j ∧ s.data[i]? = some (Char.ofNat 123) ∧
        s.data[j]? = some (Char.ofNat 125) := by
  unfold LmStudioAnalyzer.greedyJsonMatch
  dsimp only
  constructor
  · intro h hex
    obtain ⟨i', j', hij, hgi, hgj⟩ := hex
    cases hfi : s.data.findIdx? (· = Char.ofNat 123) with
    | none =>
      rw [List.findIdx?_eq_none_iff] at hfi
      rw [List.getElem?_eq_some_iff] at hgi
      obtain ⟨hl, hv⟩ := hgi
      have := hfi _ (hv ▸ List.getElem_mem hl)
      simp at this
    | some i =>
      cases hli : LmStudioAnalyzer.lastIdxOf s.data (Char.ofNat 125) with
      | none => exact lastIdxOf_none _ _ hli j' hgj
      | some j =>
        rw [hfi, hli] at h
        dsimp only at h
        split at h
        · exact absurd h (by simp)
        · rename_i hnotij
          rw [List.findIdx?_eq_some_iff_getElem] at hfi
          obtain ⟨hilt, hpi, hmini⟩ := hfi
          obtain ⟨hjlt, hgj2, hmaxj⟩ := lastIdxOf_spec _ _ _ hli
          have hii' : i ≤ i' := by
            by_contra hlt
            push_neg at hlt
            rw [List.getElem?_eq_some_iff] at hgi
            obtain ⟨hl, hv⟩ := hgi
            have := hmini i' hlt
            simp [hv] at this
          have hjj' : j' ≤ j := by
            by_contra hlt
            push_neg at hlt
            exact hmaxj j' hlt hgj
          omega
  · intro hno
    cases hfi : s.data.findIdx? (· = Char.ofNat 123) with
    | none => rfl
    | some i =>
      cases hli : LmStudioAnalyzer.lastIdxOf s.data (Char.ofNat 125) with
      | none => rfl
      | some j =>
        dsimp only
        split
        · rename_i hij
          exfalso
          rw [List.findIdx?_eq_some_iff_getElem] at hfi
          obtain ⟨hilt, hpi, -⟩ := hfi
          obtain ⟨hjlt, hgj2, -⟩ := lastIdxOf_spec _ _ _ hli
          refine hno ⟨i, j, hij, ?_, hgj2⟩
          rw [List.getElem?_eq_getElem hilt]
          simpa using hpi
        · rfl

theorem greedyJsonMatch_some_spec (s span : String)
    (h : LmStudioAnalyzer.greedyJsonMatch s = some span) :
    ∃ i j : ℕ, i < j ∧
      s.data[i]? = some (Char.ofNat 123) ∧ s.data[j]? = some (Char.ofNat 125) ∧
      (∀ k : ℕ, k < i → s.data[k]? ≠ some (Char.ofNat 123)) ∧
      (∀ k : ℕ, j < k → s.data[k]? ≠ some (Char.ofNat 125)) ∧
      span = ⟨(s.data.drop i).take (j - i + 1)⟩ := by
  unfold LmStudioAnalyzer.greedyJsonMatch at h
  dsimp only at h
  cases hfi : s.data.findIdx? (· = Char.ofNat 123) with
  | none => rw [hfi] at h; exact absurd h (by simp)
  | some i =>
    cases hli : LmStudioAnalyzer.lastIdxOf s.data (Char.ofNat 125) with
    | none => rw [hfi, hli] at h; exact absurd h (by simp)
    | some j =>
      rw [hfi, hli] at h
      dsimp only at h
      split at h
      · rename_i hij
        rw [Option.some_inj] at h
        rw [List.findIdx?_eq_some_iff_getElem] at hfi
        obtain ⟨hilt, hpi, hmini⟩ := hfi
        obtain ⟨hjlt, hgj2, hmaxj⟩ := lastIdxOf_spec _ _ _ hli
        refine ⟨i, j, hij, ?_, hgj2, ?_, hmaxj, h.symm⟩
        · rw [List.getElem?_eq_getElem hilt]
          simpa using hpi
        · intro k hk hck
          rw [List.getElem?_eq_some_iff] at hck
          obtain ⟨hkl, hkc⟩ := hck
          have := hmini k hk
          simp [hkc] at this
      · exact absurd h (by simp)

/-- **C6** (amended).  `parseHarmonyResponse` succeeds exactly when the
*greedy* brace span of the trimmed response — the substring from the first
`{` to the last `}` of the whole text, not the first balanced span — parses
as a JSON object whose `summary` field is a *non-empty* string and whose
optional `reasoning` field, when present, is `null` or a string (any other
present `reasoning` makes the source's `payload.reasoning?.trim()` throw).
The second conjunct grounds "no JSON span exists": the greedy match is
absent exactly when no `{` is followed by a later `}`; the third describes
the span the greedy match selects. -/
theorem c6_parse_error_conditions (raw : String) :
    ((LmStudioAnalyzer.parseHarmonyResponse raw).isOk = true ↔
      ∃ span fields s2,
        LmStudioAnalyzer.greedyJsonMatch (jsTrim raw) = some span ∧
        jsonParse span = some (.obj fields) ∧
        jget fields "summary" = some (.str s2) ∧ ¬ s2 = "" ∧
        (∀ r, jget fields "reasoning" = some r →
          r = JVal.null ∨ ∃ t, r = JVal.str t)) ∧
    (LmStudioAnalyzer.greedyJsonMatch (jsTrim raw) = none ↔
      ¬ ∃ i j : ℕ, i < j ∧ (jsTrim raw).data[i]? = some (Char.ofNat 123) ∧
        (jsTrim raw).data[j]? = some (Char.ofNat 125)) ∧
    (∀ span, LmStudioAnalyzer.greedyJsonMatch (jsTrim raw) = some span →
      ∃ i j : ℕ, i < j ∧
        (jsTrim raw).data[i]? = some (Char.ofNat 123) ∧
        (jsTrim raw).data[j]? = some (Char.ofNat 125) ∧
        (∀ k : ℕ, k < i → (jsTrim raw).data[k]? ≠ some (Char.ofNat 123)) ∧
        (∀ k : ℕ, j < k → (jsTrim raw).data[k]? ≠ some (Char.ofNat 125)) ∧
        span = ⟨((jsTrim raw).data.drop i).take (j - i + 1)⟩) := by
  refine ⟨?_, greedyJsonMatch_none_iff _, fun span h => greedyJsonMatch_some_spec _ span h⟩
  constructor
  · intro h
    unfold LmStudioAnalyzer.parseHarmonyResponse at h
    dsimp only at h
    cases hg : LmStudioAnalyzer.greedyJsonMatch (jsTrim raw) with
    | none => rw [hg] at h; simp [Except.isOk, Except.toBool] at h
    | some span =>
      rw [hg] at h
      dsimp only at h
      cases hp : jsonParse span with
      | none => rw [hp] at h; simp [Except.isOk, Except.toBool] at h
      | some parsed =>
        rw [hp] at h
        dsimp only at h
        cases parsed with
        | null => simp [Except.isOk, Except.toBool] at h
        | bool b => simp [Except.isOk, Except.toBool] at h
        | num q => simp [Except.isOk, Except.toBool] at h
        | str t => simp [Except.isOk, Except.toBool] at h
        | arr l => simp [Except.isOk, Except.toBool] at h
        | obj fields =>
          dsimp only at h
          cases hsum : jget fields "summary" with
          | none =>
            rw [hsum] at h
            simp [Except.isOk, Except.toBool] at h
          | some sv =>
            rw [hsum] at h
            cases sv with
            | str s2 =>
              dsimp only at h
              by_cases hne : s2 = ""
              · rw [if_pos hne] at h
                simp [Except.isOk, Except.toBool] at h
              · rw [if_neg hne] at h
                cases hre : jget fields "reasoning" with
                | none =>
                  exact ⟨span, fields, s2, rfl, hp, hsum, hne, fun r hr => by
                    rw [hre] at hr
                    exact absurd hr (by simp)⟩
                | some r =>
                  cases r with
                  | null =>
                    exact ⟨span, fields, s2, rfl, hp, hsum, hne, fun r hr => by
                      rw [hre] at hr
                      exact Or.inl (Option.some_inj.mp hr).symm⟩
                  | str t =>
                    exact ⟨span, fields, s2, rfl, hp, hsum, hne, fun r hr => by
                      rw [hre] at hr
                      exact Or.inr ⟨t, (Option.some_inj.mp hr).symm⟩⟩
                  | bool b => rw [hre] at h; simp [Except.isOk, Except.toBool] at h
                  | num q => rw [hre] at h; simp [Except.isOk, Except.toBool] at h
                  | arr l => rw [hre] at h; simp [Except.isOk, Except.toBool] at h
                  | obj fs => rw [hre] at h; simp [Except.isOk, Except.toBool] at h
            | null => simp [Except.isOk, Except.toBool] at h
            | bool b => simp [Except.isOk, Except.toBool] at h
            | num q => simp [Except.isOk, Except.toBool] at h
            | arr l => simp [Except.isOk, Except.toBool] at h
            | obj fs => simp [Except.isOk, Except.toBool] at h
  · intro hex
    obtain ⟨span, fields, s2, hg, hp, hsum, hne, hreas⟩ := hex
    unfold LmStudioAnalyzer.parseHarmonyResponse
    dsimp only
    rw [hg]
    dsimp only
    rw [hp]
    dsimp only
    rw [hsum]
    dsimp only
    rw [if_neg hne]
    cases hr : jget fields "reasoning" with
    | none => rfl
    | some r =>
      rcases hreas r hr with hnull | ⟨t, hstr⟩
      · subst hnull; rfl
      · subst hstr; rfl

/-- **C6** (counterexample).  Two concrete refutations of the claim's
"fails exactly when no JSON span exists / the span fails to parse / summary
missing-or-non-string":
1. On `{"summary":""}` the whole (balanced) span parses and `summary` *is* a
   string, yet the parser errors — the truthiness test `!payload.summary`
   also rejects the empty string.
2. On `{"summary":"ok"} }` a balanced span with a valid string summary
   exists (`{"summary":"ok"}` parses), but the greedy regex match runs to
   the *last* closing brace, producing an unparseable span, so the parser
   errors. -/
theorem c6_counterexample :
    (∃ e, LmStudioAnalyzer.parseHarmonyResponse "\x7b\"summary\":\"\"\x7d" =
      Except.error e) ∧
    jsonParse "\x7b\"summary\":\"\"\x7d" = some (.obj [("summary", .str "")]) ∧
    (∃ e, LmStudioAnalyzer.parseHarmonyResponse "\x7b\"summary\":\"ok\"\x7d \x7d" =
      Except.error e) ∧
    jsonParse "\x7b\"summary\":\"ok\"\x7d" = some (.obj [("summary", .str "ok")]) ∧
    LmStudioAnalyzer.greedyJsonMatch (jsTrim "\x7b\"summary\":\"ok\"\x7d \x7d") =
      some "\x7b\"summary\":\"ok\"\x7d \x7d" :=
  ⟨⟨_, rfl⟩, rfl, ⟨_, rfl⟩, rfl, rfl⟩

theorem c6_parse_error_conditions_witness :
    (LmStudioAnalyzer.parseHarmonyResponse "\x7b\"summary\":\"ok\"\x7d").isOk = true := by
  refine (c6_parse_error_conditions "\x7b\"summary\":\"ok\"\x7d").1.mpr
    ⟨"\x7b\"summary\":\"ok\"\x7d", [("summary", .str "ok")], "ok", rfl, rfl, rfl, by decide,
      fun r hr => ?_⟩
  rw [show jget [("summary", JVal.str "ok")] "reasoning" = none from rfl] at hr
  exact Option.noConfusion hr

/-- One save event on a TypeScript file. -/
def wC7Event : ActivityEvent :=
  { kind := "documentSave", uri := "file:///w/a.ts", languageId := some "typescript",
    details := none, timestamp := 5 }

/-- A request touching one TypeScript file with one save and no changes. -/
def wC7Ctx : AnalysisContext :=
  { events := [wC7Event], objectives := ["obj"], reason := "manual" }

/-- **C7** (counterexample).  On a response with an empty actions array and a
digest with one file, one language, 0 changes and 1 save, the inference
analyzer synthesizes the generic objective-check action (`fallbackActions`
keys only on change/save thresholds), whereas the rule set stated in the
claim (≤3 representative files ⇒ review them, etc. — the richer
`deriveActions` variant) would produce a walk-through action naming the
file.  The two rule sets therefore differ. -/
theorem c7_counterexample :
    (AnalysisEngine.run healthyEngine wC7Ctx
        ⟨0, 0, .ok "\x7b\"summary\":\"ok\"\x7d"⟩).1.actions =
      ["Evaluate whether current changes reinforce the objective: obj."] ∧
    HeuristicRich.deriveActions (buildActivityStats wC7Ctx 12 0) "obj" =
      ["Walk through a.ts and capture follow-ups that keep \"obj\" on track."] ∧
    ¬ (AnalysisEngine.run healthyEngine wC7Ctx
        ⟨0, 0, .ok "\x7b\"summary\":\"ok\"\x7d"⟩).1.actions =
      HeuristicRich.deriveActions (buildActivityStats wC7Ctx 12 0) "obj" :=
  ⟨rfl, rfl, by decide⟩

/-- **C7** (amended).  When the normalized actions list of the response is
empty, the inference analyzer's insight carries
`fallbackActions changeCount saveCount objectives`, and `fallbackActions`
implements the *same rule set as the heuristic analyzer's `deriveActions`*
(`analyzers/heuristicAnalyzer.ts`): `changes > 6` ⇒ focused review,
`saves == 0` ⇒ persist work-in-progress, else one generic objective check —
not the richer file/language/checkpoint rule set the claim describes. -/
theorem c7_amended (resp : String) (p : LmStudioAnalyzer.HarmonyPayload)
    (ctx : AnalysisContext) (stats : ActivityStats) (now : ℤ)
    (hparse : LmStudioAnalyzer.parseHarmonyResponse resp = .ok p)
    (hempty : p.actions = []) :
    (∃ i, LmStudioAnalyzer.analyze (.ok resp) ctx stats now = .ok i ∧
      i.actions =
        LmStudioAnalyzer.fallbackActions stats.changeCount stats.saveCount ctx.objectives) ∧
    (∀ (c s : ℕ) (objs : List String),
      LmStudioAnalyzer.fallbackActions c s objs =
        HeuristicAnalyzer.deriveActions c s
          ((objs.head?).getD "Maintain overarching project goals")) := by
  constructor
  · cases hres : LmStudioAnalyzer.analyze (.ok resp) ctx stats now with
    | error e => simp [LmStudioAnalyzer.analyze, hparse] at hres
    | ok i =>
      refine ⟨i, rfl, ?_⟩
      obtain ⟨resp2, p2, hrespEq, hp2, hconf, hact, hsrc⟩ := lm_analyze_ok_inv _ _ _ _ _ hres
      obtain rfl : resp = resp2 := Except.ok.inj hrespEq
      rw [hparse] at hp2
      obtain rfl : p = p2 := Except.ok.inj hp2
      rw [hact, hempty]
      rfl
  · intro c s objs
    rfl

theorem c7_amended_witness :
    (∃ i, LmStudioAnalyzer.analyze (.ok "\x7b\"summary\":\"ok\"\x7d") wC7Ctx
        (buildActivityStats wC7Ctx 12 0) 0 = .ok i ∧
      i.actions = LmStudioAnalyzer.fallbackActions 0 1 ["obj"]) ∧
    LmStudioAnalyzer.fallbackActions 0 1 ["obj"] =
      HeuristicAnalyzer.deriveActions 0 1 "obj" := by
  have h := c7_amended "\x7b\"summary\":\"ok\"\x7d"
    { summary := "ok", confidence := 0.7, actions := [], reasoning := none }
    wC7Ctx (buildActivityStats wC7Ctx 12 0) 0 rfl rfl
  exact ⟨h.1, h.2 0 1 ["obj"]⟩

theorem charsLE_total : ∀ as bs : List Char, charsLE as bs = true ∨ charsLE bs as = true := by
  intro as
  induction as with
  | nil => intro bs; exact Or.inl rfl
  | cons a as ih =>
    intro bs
    cases bs with
    | nil => exact Or.inr rfl
    | cons b bs =>
      by_cases hab : a = b
      · subst hab
        simp only [charsLE, if_pos rfl]
        exact ih bs
      · rcases Ne.lt_or_lt hab with hlt | hlt
        · exact Or.inl (by simp [charsLE, hab, hlt])
        · refine Or.inr ?_
          have hba : ¬ b = a := fun h => hab h.symm
          simp only [charsLE, if_neg hba]
          exact decide_eq_true hlt

theorem charsLE_trans :
    ∀ as bs cs : List Char,
      charsLE as bs = true → charsLE bs cs = true → charsLE as cs = true := by
  intro as
  induction as with
  | nil => intro bs cs h1 h2; rfl
  | cons a as ih =>
    intro bs cs h1 h2
    cases bs with
    | nil => simp [charsLE] at h1
    | cons b bs =>
      cases cs with
      | nil => simp [charsLE] at h2
      | cons c cs =>
        simp only [charsLE] at h1 h2 ⊢
        by_cases hab : a = b
        · subst hab
          rw [if_pos rfl] at h1
          by_cases hbc : a = c
          · subst hbc
            rw [if_pos rfl] at h2 ⊢
            exact ih bs cs h1 h2
          · rw [if_neg hbc] at h2 ⊢
            exact h2
        · rw [if_neg hab] at h1
          by_cases hbc : b = c
          · subst hbc
            rw [if_neg hab]
            exact h1
          · rw [if_neg hbc] at h2
            have hac : a < c := lt_trans (of_decide_eq_true h1) (of_decide_eq_true h2)
            have hane : ¬ a = c := ne_of_lt hac
            rw [if_neg hane]
            exact decide_eq_true hac

instance : IsTotal (String × ℕ) InsightStore.extOrder :=
  ⟨by
    intro a b
    unfold InsightStore.extOrder
    rcases lt_trichotomy a.2 b.2 with hlt | heq | hlt
    · exact Or.inr (Or.inl hlt)
    · rcases charsLE_total a.1.data b.1.data with hle | hle
      · exact Or.inl (Or.inr ⟨heq, hle⟩)
      · exact Or.inr (Or.inr ⟨heq.symm, hle⟩)
    · exact Or.inl (Or.inl hlt)⟩

instance : IsTrans (String × ℕ) InsightStore.extOrder :=
  ⟨by
    intro a b c hab hbc
    unfold InsightStore.extOrder at hab hbc ⊢
    rcases hab with h1 | ⟨h1, h1s⟩
    · rcases hbc with h2 | ⟨h2, h2s⟩
      · exact Or.inl (lt_trans h2 h1)
      · exact Or.inl (h2 ▸ h1)
    · rcases hbc with h2 | ⟨h2, h2s⟩
      · exact Or.inl (h1 ▸ h2)
      · exact Or.inr ⟨h1.trans h2, charsLE_trans _ _ _ h1s h2s⟩⟩

/-- The multiset of retained extensions of a `files` array: per string entry,
the extension computed by `extractExtension`, kept when non-empty — the
reference against which the ordering of `extractFileExtensions` is stated. -/
def extsOf (raw : List JVal) : List String :=
  raw.filterMap
    (fun v =>
      match v with
      | .str u =>
        match InsightStore.extractExtension u with
        | some e => if e = "" then none else some e
        | none => none
      | _ => none)

/-- The count stored for key `e` in an insertion-ordered count list. -/
def countOf (acc : List (String × ℕ)) (e : String) : ℕ :=
  (((acc.find? (fun q => q.1 = e)).map Prod.snd)).getD 0

theorem find_key_preserving_map (f : String × ℕ → String × ℕ)
    (hf : ∀ p, (f p).1 = p.1) (acc : List (String × ℕ)) (x : String) :
    ((acc.map f).find? (fun q => decide (q.1 = x))) =
      (acc.find? (fun q => decide (q.1 = x))).map f := by
  induction acc with
  | nil => rfl
  | cons q rest ih =>
    by_cases hq : q.1 = x
    · rw [List.map_cons, List.find?_cons_of_pos _ (by simp [hf, hq]),
        List.find?_cons_of_pos _ (by simp [hq])]
      rfl
    · rw [List.map_cons, List.find?_cons_of_neg _ (by simp [hf, hq]),
        List.find?_cons_of_neg _ (by simp [hq])]
      exact ih

theorem countOf_bump_self (acc : List (String × ℕ)) (e : String) :
    countOf (InsightStore.bumpExt acc e) e = countOf acc e + 1 := by
  unfold InsightStore.bumpExt countOf
  split
  · rename_i hany
    rw [find_key_preserving_map _ (by intro p; split <;> rfl)]
    cases hfind : acc.find? (fun q => decide (q.1 = e)) with
    | none =>
      rw [List.find?_eq_none] at hfind
      rw [List.any_eq_true] at hany
      obtain ⟨p, hp, hpe⟩ := hany
      exact absurd hpe (by simpa using hfind p hp)
    | some p =>
      have hpe : p.1 = e := by simpa using List.find?_some hfind
      simp [hpe]
  · rename_i hany
    have hnone : acc.find? (fun q => decide (q.1 = e)) = none := by
      rw [List.find?_eq_none]
      intro p hp hpe
      exact hany (List.any_eq_true.mpr ⟨p, hp, hpe⟩)
    rw [List.find?_append, hnone]
    simp [List.find?]

theorem countOf_bump_other (acc : List (String × ℕ)) (e x : String) (hx : ¬ x = e) :
    countOf (InsightStore.bumpExt acc e) x = countOf acc x := by
  unfold InsightStore.bumpExt countOf
  split
  · rw [find_key_preserving_map _ (by intro p; split <;> rfl)]
    cases hfind : acc.find? (fun q => decide (q.1 = x)) with
    | none => rfl
    | some p =>
      have hpx : p.1 = x := by simpa using List.find?_some hfind
      have hpe : ¬ p.1 = e := by rw [hpx]; exact hx
      simp [hpe]
  · rw [List.find?_append]
    cases hfind : acc.find? (fun q => decide (q.1 = x)) with
    | none =>
      have hex : ¬ e = x := fun h => hx h.symm
      simp [List.find?, hex]
    | some p => rfl

theorem keys_bump (acc : List (String × ℕ)) (e x : String) :
    (x ∈ (InsightStore.bumpExt acc e).map Prod.fst ↔
      x ∈ acc.map Prod.fst ∨ x = e) ∧
    ((acc.map Prod.fst).Nodup → ((InsightStore.bumpExt acc e).map Prod.fst).Nodup) := by
  unfold InsightStore.bumpExt
  split
  · rename_i hany
    have hkeys : (acc.map (fun p => if p.1 = e then (p.1, p.2 + 1) else p)).map Prod.fst =
        acc.map Prod.fst := by
      rw [List.map_map]
      exact List.map_congr_left (by intro p hp; simp only [Function.comp]; split <;> rfl)
    rw [hkeys]
    constructor
    · constructor
      · exact Or.inl
      · intro h
        rcases h with h | h
        · exact h
        · subst h
          rw [List.any_eq_true] at hany
          obtain ⟨p, hp, hpe⟩ := hany
          refine List.mem_map.mpr ⟨p, hp, by simpa using hpe⟩
    · exact id
  · rename_i hany
    rw [List.map_append]
    constructor
    · simp
    · intro hnd
      rw [List.nodup_append]
      refine ⟨hnd, List.nodup_singleton e, ?_⟩
      intro a ha hb
      rw [show (([(e, 1)] : List (String × ℕ)).map Prod.fst) = [e] from rfl] at hb
      rw [List.mem_singleton] at hb
      subst hb
      obtain ⟨p, hp, hpe⟩ := List.mem_map.mp ha
      exact hany (List.any_eq_true.mpr ⟨p, hp, by simpa using hpe⟩)

theorem bump_foldl (l : List String) :
    ∀ acc : List (String × ℕ),
      (∀ e, countOf (l.foldl InsightStore.bumpExt acc) e = countOf acc e + l.count e) ∧
      (∀ x, x ∈ (l.foldl InsightStore.bumpExt acc).map Prod.fst ↔
        x ∈ acc.map Prod.fst ∨ x ∈ l) ∧
      ((acc.map Prod.fst).Nodup →
        ((l.foldl InsightStore.bumpExt acc).map Prod.fst).Nodup) := by
  induction l with
  | nil =>
    intro acc
    refine ⟨fun e => by simp, fun x => by simp, id⟩
  | cons e rest ih =>
    intro acc
    obtain ⟨ihc, ihm, ihn⟩ := ih (InsightStore.bumpExt acc e)
    refine ⟨?_, ?_, ?_⟩
    · intro x
      rw [List.foldl_cons, ihc x, List.count_cons]
      by_cases hx : x = e
      · subst hx
        rw [countOf_bump_self]
        simp only [beq_self_eq_true, if_true]
        omega
      · rw [countOf_bump_other _ _ _ hx]
        have hbeq : (x == e) = false := beq_eq_false_iff_ne.mpr hx
        have hbeq2 : (e == x) = false := beq_eq_false_iff_ne.mpr (fun h => hx h.symm)
        simp only [hbeq, hbeq2, Bool.false_eq_true, if_false]
        omega
    · intro x
      rw [List.foldl_cons, ihm x, (keys_bump acc e x).1]
      simp only [List.mem_cons]
      tauto
    · intro hnd
      rw [List.foldl_cons]
      exact ihn ((keys_bump acc e e).2 hnd)

theorem countOf_coherent (acc : List (String × ℕ)) (hnd : (acc.map Prod.fst).Nodup) :
    ∀ p ∈ acc, p.2 = countOf acc p.1 := by
  induction acc with
  | nil => intro p hp; exact absurd hp (List.not_mem_nil p)
  | cons q rest ih =>
    intro p hp
    rw [List.map_cons, List.nodup_cons] at hnd
    rcases List.mem_cons.mp hp with hq | hrest
    · subst hq
      unfold countOf
      rw [List.find?_cons_of_pos _ (by simp)]
      rfl
    · have hne : ¬ q.1 = p.1 := by
        intro hq
        exact hnd.1 (hq ▸ List.mem_map.mpr ⟨p, hrest, rfl⟩)
      unfold countOf
      rw [List.find?_cons_of_neg _ (by simpa using hne)]
      exact ih hnd.2 p hrest

theorem countExtensions_go (raw : List JVal) :
    ∀ acc,
      raw.foldl
        (fun acc v =>
          match v with
          | .str s =>
            match InsightStore.extractExtension s with
            | some e => if e = "" then acc else InsightStore.bumpExt acc e
            | none => acc
          | _ => acc)
        acc =
      (extsOf raw).foldl InsightStore.bumpExt acc := by
  induction raw with
  | nil => intro acc; rfl
  | cons v rest ih =>
    intro acc
    rw [List.foldl_cons]
    cases v with
    | str s =>
      cases hx : InsightStore.extractExtension s with
      | none =>
        have h1 : extsOf (JVal.str s :: rest) = extsOf rest := by
          unfold extsOf
          rw [List.filterMap_cons]
          simp [hx]
        rw [h1]
        have h2 :
            (match JVal.str s with
              | JVal.str s =>
                match InsightStore.extractExtension s with
                | some e => if e = "" then acc else InsightStore.bumpExt acc e
                | none => acc
              | _ => acc) = acc := by
          simp [hx]
        rw [h2]
        exact ih acc
      | some e =>
        by_cases he : e = ""
        · have h1 : extsOf (JVal.str s :: rest) = extsOf rest := by
            unfold extsOf
            rw [List.filterMap_cons]
            simp [hx, he]
          have h2 :
              (match JVal.str s with
                | JVal.str s =>
                  match InsightStore.extractExtension s with
                  | some e => if e = "" then acc else InsightStore.bumpExt acc e
                  | none => acc
                | _ => acc) = acc := by
            simp [hx, he]
          rw [h1, h2]
          exact ih acc
        · have h1 : extsOf (JVal.str s :: rest) = e :: extsOf rest := by
            unfold extsOf
            rw [List.filterMap_cons]
            simp [hx, he]
          have h2 :
              (match JVal.str s with
                | JVal.str s =>
                  match InsightStore.extractExtension s with
                  | some e => if e = "" then acc else InsightStore.bumpExt acc e
                  | none => acc
                | _ => acc) = InsightStore.bumpExt acc e := by
            simp [hx, he]
          rw [h1, h2, List.foldl_cons]
          exact ih (InsightStore.bumpExt acc e)
    | null => exact ih acc
    | bool b => exact ih acc
    | num q => exact ih acc
    | arr l => exact ih acc
    | obj fs => exact ih acc

theorem countExtensions_eq (raw : List JVal) :
    InsightStore.countExtensions raw = (extsOf raw).foldl InsightStore.bumpExt [] :=
  countExtensions_go raw []

theorem countOf_nil (e : String) : countOf [] e = 0 := rfl

theorem countExtensions_count (raw : List JVal) (e : String) :
    countOf (InsightStore.countExtensions raw) e = (extsOf raw).count e := by
  rw [countExtensions_eq, (bump_foldl (extsOf raw) []).1 e, countOf_nil, Nat.zero_add]

theorem countExtensions_keys_nodup (raw : List JVal) :
    ((InsightStore.countExtensions raw).map Prod.fst).Nodup := by
  rw [countExtensions_eq]
  exact (bump_foldl (extsOf raw) []).2.2 (by simp)

theorem countExtensions_keys_mem (raw : List JVal) (x : String) :
    x ∈ (InsightStore.countExtensions raw).map Prod.fst ↔ x ∈ extsOf raw := by
  rw [countExtensions_eq]
  have h := (bump_foldl (extsOf raw) []).2.1 x
  simpa using h

theorem countExtensions_snd (raw : List JVal) :
    ∀ p ∈ InsightStore.countExtensions raw, p.2 = (extsOf raw).count p.1 := by
  intro p hp
  rw [countOf_coherent _ (countExtensions_keys_nodup raw) p hp]
  exact countExtensions_count raw p.1

theorem extractFileExtensions_nodup (raw : List JVal) :
    (InsightStore.extractFileExtensions raw).Nodup := by
  unfold InsightStore.extractFileExtensions
  have hperm :
      List.Perm
        ((List.insertionSort InsightStore.extOrder (InsightStore.countExtensions raw)).map Prod.fst)
        ((InsightStore.countExtensions raw).map Prod.fst) :=
    (List.perm_insertionSort _ _).map _
  exact hperm.nodup_iff.mpr (countExtensions_keys_nodup raw)

theorem extractFileExtensions_mem (raw : List JVal) (x : String) :
    x ∈ InsightStore.extractFileExtensions raw ↔ x ∈ extsOf raw := by
  unfold InsightStore.extractFileExtensions
  rw [((List.perm_insertionSort _ _).map Prod.fst).mem_iff]
  exact countExtensions_keys_mem raw x

theorem extractFileExtensions_sorted (raw : List JVal) :
    (InsightStore.extractFileExtensions raw).Pairwise
      (fun a b => (extsOf raw).count b < (extsOf raw).count a ∨
        ((extsOf raw).count a = (extsOf raw).count b ∧ strLE a b = true)) := by
  unfold InsightStore.extractFileExtensions
  rw [List.pairwise_map]
  have hs :
      (List.insertionSort InsightStore.extOrder (InsightStore.countExtensions raw)).Pairwise
        InsightStore.extOrder :=
    List.sorted_insertionSort InsightStore.extOrder _
  refine hs.imp_of_mem ?_
  intro a b ha hb hab
  have ha2 : a ∈ InsightStore.countExtensions raw :=
    ((List.perm_insertionSort _ _).mem_iff).mp ha
  have hb2 : b ∈ InsightStore.countExtensions raw :=
    ((List.perm_insertionSort _ _).mem_iff).mp hb
  have hca := countExtensions_snd raw a ha2
  have hcb := countExtensions_snd raw b hb2
  unfold InsightStore.extOrder at hab
  rw [hca, hcb] at hab
  exact hab

theorem persistTelemetry_telemetryHistory (s : InsightStore.State) :
    (InsightStore.persistTelemetry s).telemetryHistory = s.telemetryHistory := by
  unfold InsightStore.persistTelemetry InsightStore.persistTelemetryWith
  cases hs : s.storage <;> rfl

/-- **C8** (telemetry extension derivation and ordering).  When an insight
whose metadata carries a `files` array is recorded, the telemetry snapshot
placed at the head of the telemetry history lists exactly the per-file
extensions computed by `extractExtension` (lower-cased suffix after the last
dot, or the whole lower-cased file name when there is no interior dot),
deduplicated, and ordered by descending frequency with alphabetical
tie-break among equal frequencies. -/
theorem c8_telemetry_extensions (s : InsightStore.State) (i : StrategicInsight)
    (md : List (String × JVal)) (xs : List JVal)
    (hmax : 1 ≤ s.maxTelemetryItems)
    (hmd : i.metadata = some md)
    (hfiles : jget md "files" = some (.arr xs)) :
    ((InsightStore.recordTelemetry s i).telemetryHistory.head?.map
        TelemetrySnapshot.fileExtensions) =
      some (InsightStore.extractFileExtensions xs) ∧
    (InsightStore.extractFileExtensions xs).Nodup ∧
    (∀ e, e ∈ InsightStore.extractFileExtensions xs ↔ e ∈ extsOf xs) ∧
    (InsightStore.extractFileExtensions xs).Pairwise
      (fun a b => (extsOf xs).count b < (extsOf xs).count a ∨
        ((extsOf xs).count a = (extsOf xs).count b ∧ strLE a b = true)) := by
  refine ⟨?_, extractFileExtensions_nodup xs, fun e => extractFileExtensions_mem xs e,
    extractFileExtensions_sorted xs⟩
  unfold InsightStore.recordTelemetry
  rw [persistTelemetry_telemetryHistory]
  dsimp only
  rw [hmd]
  dsimp only [Option.getD_some]
  rw [hfiles]
  dsimp only
  cases hmt : s.maxTelemetryItems with
  | zero => omega
  | succ n =>
    split
    · rw [List.take_succ_cons]
      rfl
    · rfl

/-- A `files` metadata array with extensions ts, ts, md. -/
def wC8Files : List JVal :=
  [JVal.str "file:///w/a.ts", JVal.str "file:///w/b.ts", JVal.str "file:///w/c.md"]

/-- An insight whose metadata carries `wC8Files`. -/
def wC8Insight : StrategicInsight :=
  { id := "telemetry", summary := "s", confidence := 1, actions := [],
    timestamp := 0, metadata := some [("files", JVal.arr wC8Files)] }

/-- A default-configured store. -/
def wC8Store : InsightStore.State := InsightStore.mkStore {}

theorem c8_telemetry_extensions_witness :
    1 ≤ wC8Store.maxTelemetryItems ∧
    ((InsightStore.recordTelemetry wC8Store wC8Insight).telemetryHistory.head?.map
        TelemetrySnapshot.fileExtensions) =
      some (InsightStore.extractFileExtensions wC8Files) ∧
    InsightStore.extractFileExtensions wC8Files = ["ts", "md"] :=
  ⟨by decide,
   (c8_telemetry_extensions wC8Store wC8Insight _ wC8Files (by decide) rfl rfl).1,
   by decide⟩

/-- The history invariant of the store: the cached latest insight is the head
of the in-memory history. -/
def InsightStore.Inv (s : InsightStore.State) : Prop :=
  s.latest = s.history.head?

theorem persistHistory_fields (s : InsightStore.State) (p : List StrategicInsight) :
    (InsightStore.persistHistory s p).latest = s.latest ∧
    (InsightStore.persistHistory s p).history = s.history := by
  unfold InsightStore.persistHistory
  cases hs : s.storage <;> exact ⟨rfl, rfl⟩

theorem persistTelemetryWith_fields (s : InsightStore.State) (p : List TelemetrySnapshot) :
    (InsightStore.persistTelemetryWith s p).latest = s.latest ∧
    (InsightStore.persistTelemetryWith s p).history = s.history := by
  unfold InsightStore.persistTelemetryWith
  cases hs : s.storage <;> exact ⟨rfl, rfl⟩

theorem persistTelemetry_fields (s : InsightStore.State) :
    (InsightStore.persistTelemetry s).latest = s.latest ∧
    (InsightStore.persistTelemetry s).history = s.history := by
  unfold InsightStore.persistTelemetry
  exact persistTelemetryWith_fields s s.telemetryHistory

theorem persist_fields (s : InsightStore.State) :
    (InsightStore.persist s).latest = s.latest ∧
    (InsightStore.persist s).history = s.history := by
  unfold InsightStore.persist
  cases hs : s.storage with
  | none => exact ⟨rfl, rfl⟩
  | some m => exact persistHistory_fields s _

theorem recordTelemetry_fields (s : InsightStore.State) (i : StrategicInsight) :
    (InsightStore.recordTelemetry s i).latest = s.latest ∧
    (InsightStore.recordTelemetry s i).history = s.history := by
  unfold InsightStore.recordTelemetry
  dsimp only
  constructor
  · rw [(persistTelemetry_fields _).1]
  · rw [(persistTelemetry_fields _).2]

theorem restoreTelemetry_fields (s : InsightStore.State) :
    (InsightStore.restoreTelemetry s).latest = s.latest ∧
    (InsightStore.restoreTelemetry s).history = s.history := by
  unfold InsightStore.restoreTelemetry
  cases hs : s.storage with
  | none => exact ⟨rfl, rfl⟩
  | some m =>
    dsimp only
    cases hm : InsightStore.mGet m s.telemetryStorageKey with
    | none => exact ⟨rfl, rfl⟩
    | some v =>
      cases v with
      | null => exact ⟨rfl, rfl⟩
      | str a => exact ⟨rfl, rfl⟩
      | num a => exact ⟨rfl, rfl⟩
      | bool a => exact ⟨rfl, rfl⟩
      | obj a => exact ⟨rfl, rfl⟩
      | arr payload =>
        dsimp only
        by_cases hp : payload.isEmpty = true
        · rw [if_pos hp]; exact ⟨rfl, rfl⟩
        · rw [if_neg hp]
          by_cases hr :
              (((payload.filter InsightStore.isTelemetrySnapshot).map
                  InsightStore.normalizeTelemetry).take s.maxTelemetryItems).isEmpty = true
          · rw [if_pos hr]; exact ⟨rfl, rfl⟩
          · rw [if_neg hr]; exact ⟨rfl, rfl⟩

theorem restoreTelemetry_inv (s : InsightStore.State) (h : InsightStore.Inv s) :
    InsightStore.Inv (InsightStore.restoreTelemetry s) := by
  unfold InsightStore.Inv at h ⊢
  rw [(restoreTelemetry_fields s).1, (restoreTelemetry_fields s).2]
  exact h

theorem restoreFromStorage_inv (s : InsightStore.State) (h0 : s.history = [])
    (hInv : InsightStore.Inv s) : InsightStore.Inv (InsightStore.restoreFromStorage s) := by
  unfold InsightStore.restoreFromStorage
  cases hs : s.storage with
  | none => exact hInv
  | some m =>
    dsimp only
    cases hm : InsightStore.mGet m s.storageKey with
    | none => exact hInv
    | some v =>
      cases v with
      | null => exact hInv
      | str a => exact hInv
      | num a => exact hInv
      | bool a => exact hInv
      | obj a => exact hInv
      | arr payload =>
        dsimp only
        by_cases hp : payload.isEmpty = true
        · rw [if_pos hp]; exact hInv
        · rw [if_neg hp]
          by_cases hr :
              (((payload.filter InsightStore.isInsightLike).map
                  InsightStore.normalizeStoredInsight).take s.maxHistoryItems).isEmpty = true
          · rw [if_pos hr]; exact hInv
          · rw [if_neg hr]
            unfold InsightStore.Inv
            dsimp only
            rw [h0, List.nil_append]

theorem mkStore_inv (opts : InsightStore.Options) :
    InsightStore.Inv (InsightStore.mkStore opts) := by
  unfold InsightStore.mkStore
  dsimp only
  cases ho : opts.storage with
  | none =>
    unfold InsightStore.Inv
    rfl
  | some m =>
    apply restoreTelemetry_inv
    apply restoreFromStorage_inv
    · rfl
    · unfold InsightStore.Inv
      rfl

theorem setLatest_inv (s : InsightStore.State) (i : StrategicInsight)
    (hmax : 1 ≤ s.maxHistoryItems) :
    InsightStore.Inv (InsightStore.setLatest s i) := by
  unfold InsightStore.setLatest
  dsimp only
  unfold InsightStore.Inv
  rw [(recordTelemetry_fields _ _).1, (recordTelemetry_fields _ _).2,
    (persist_fields _).1, (persist_fields _).2]
  dsimp only
  cases hmt : s.maxHistoryItems with
  | zero => omega
  | succ n =>
    split
    · rw [List.take_succ_cons]
      rfl
    · rfl

theorem clearHistory_inv (s : InsightStore.State) (h : InsightStore.Inv s) :
    InsightStore.Inv (InsightStore.clearHistory s) := by
  unfold InsightStore.clearHistory
  by_cases hc : s.history.isEmpty = true ∧ s.telemetryHistory.isEmpty = true
  · rw [if_pos hc]; exact h
  · rw [if_neg hc]
    dsimp only
    unfold InsightStore.Inv
    rw [(persistTelemetryWith_fields _ _).1, (persistTelemetryWith_fields _ _).2,
      (persistHistory_fields _ _).1, (persistHistory_fields _ _).2]
    rfl

theorem inv_getters (s : InsightStore.State) (h : InsightStore.Inv s) :
    InsightStore.getLatest s = (InsightStore.getHistory s).head? := by
  unfold InsightStore.getLatest InsightStore.getHistory
  unfold InsightStore.Inv at h
  rw [h]
  cases hl : s.history with
  | nil => rfl
  | cons a t => rfl

/-- A plain insight with no metadata, used for the history-invariant claims. -/
def wC9Insight : StrategicInsight :=
  { id := "inv", summary := "s", confidence := 1, actions := [], timestamp := 0,
    metadata := none }

/-- **C9** (counterexample).  With `maxHistoryItems = 0`, `setLatest` caches
the insight as latest while the truncated history stays empty, so
`getLatest()` is defined although the history is empty — the claimed
invariant is not preserved by `setLatest` for every configuration. -/
theorem c9_counterexample :
    InsightStore.getLatest
        (InsightStore.setLatest (InsightStore.mkStore { maxHistoryItems := some 0 }) wC9Insight) =
      some wC9Insight ∧
    InsightStore.getHistory
        (InsightStore.setLatest (InsightStore.mkStore { maxHistoryItems := some 0 }) wC9Insight) =
      [] :=
  ⟨rfl, rfl⟩

/-- **C9** (amended).  The invariant `latest = history.head?` holds after
construction (for every option set, storage attached or not), is established
by `setLatest` whenever the configured history cap is at least 1 (the
default is 20; with cap 0 it fails, see the counterexample), is preserved by
`clearHistory`, and under it `getLatest()` returns exactly the head of
`getHistory()` — in particular it is `undefined` iff the history is empty. -/
theorem c9_latest_head_invariant :
    (∀ opts : InsightStore.Options, InsightStore.Inv (InsightStore.mkStore opts)) ∧
    (∀ (s : InsightStore.State) (i : StrategicInsight), 1 ≤ s.maxHistoryItems →
      InsightStore.Inv (InsightStore.setLatest s i)) ∧
    (∀ s : InsightStore.State, InsightStore.Inv s →
      InsightStore.Inv (InsightStore.clearHistory s)) ∧
    (∀ s : InsightStore.State, InsightStore.Inv s →
      InsightStore.getLatest s = (InsightStore.getHistory s).head?) :=
  ⟨mkStore_inv, setLatest_inv, clearHistory_inv, inv_getters⟩

theorem c9_latest_head_invariant_witness :
    1 ≤ (InsightStore.mkStore {}).maxHistoryItems ∧
    InsightStore.Inv (InsightStore.setLatest (InsightStore.mkStore {}) wC9Insight) ∧
    InsightStore.getLatest (InsightStore.setLatest (InsightStore.mkStore {}) wC9Insight) =
      (InsightStore.getHistory (InsightStore.setLatest (InsightStore.mkStore {}) wC9Insight)).head? :=
  ⟨by decide,
   c9_latest_head_invariant.2.1 (InsightStore.mkStore {}) wC9Insight (by decide),
   c9_latest_head_invariant.2.2.2 _
     (c9_latest_head_invariant.2.1 (InsightStore.mkStore {}) wC9Insight (by decide))⟩

/-- **C10** (actions coerced to strings on restore).  A stored entry with
string `id` and `summary`, numeric `confidence` and `timestamp`, and an
`actions` field that is an array of arbitrary JSON values passes
`isInsightLike`; normalization maps every `actions` element through the
JavaScript string coercion; and restoring a storage payload holding exactly
that entry (under the configured key, with a history cap of at least 1)
appends the normalized insight to the history instead of dropping the
entry as malformed. -/
theorem c10_actions_coerced (m : List (String × JVal)) (xs : List JVal)
    (sid ssum : String) (qc qt : ℚ)
    (hid : jget m "id" = some (.str sid))
    (hsum : jget m "summary" = some (.str ssum))
    (hconf : jget m "confidence" = some (.num qc))
    (hts : jget m "timestamp" = some (.num qt))
    (hact : jget m "actions" = some (.arr xs)) :
    InsightStore.isInsightLike (.obj m) = true ∧
    (InsightStore.normalizeStoredInsight (.obj m)).actions = xs.map jsToString ∧
    (∀ (s : InsightStore.State) (mem : InsightStore.Memento),
      s.storage = some mem →
      InsightStore.mGet mem s.storageKey = some (.arr [.obj m]) →
      1 ≤ s.maxHistoryItems →
      (InsightStore.restoreFromStorage s).history =
        s.history ++ [InsightStore.normalizeStoredInsight (.obj m)]) := by
  have h1 : InsightStore.isInsightLike (.obj m) = true := by
    unfold InsightStore.isInsightLike
    dsimp only
    rw [hid, hsum, hconf, hts, hact]
    rfl
  refine ⟨h1, ?_, ?_⟩
  · unfold InsightStore.normalizeStoredInsight
    dsimp only
    rw [hact]
  · intro s mem hstor hget hmax
    unfold InsightStore.restoreFromStorage
    rw [hstor]
    dsimp only
    rw [hget]
    dsimp only
    rw [if_neg (by simp)]
    have h2 : [JVal.obj m].filter InsightStore.isInsightLike = [JVal.obj m] := by
      simp [h1]
    rw [h2]
    simp only [List.map_cons, List.map_nil]
    cases hmt : s.maxHistoryItems with
    | zero => omega
    | succ n =>
      rw [List.take_succ_cons, List.take_nil]
      rw [if_neg (by simp)]

/-- A stored history entry whose `actions` array mixes a number, a string,
and a boolean. -/
def wC10Entry : List (String × JVal) :=
  [("id", JVal.str "restored"), ("summary", JVal.str "Summary"),
   ("confidence", JVal.num 1), ("timestamp", JVal.num 2),
   ("actions", JVal.arr [JVal.num 1, JVal.str "b", JVal.bool true])]

/-- A pre-restore store state whose storage holds exactly `wC10Entry` under
the default history key. -/
def wC10State : InsightStore.State :=
  { latest := none
    history := []
    storage := some [(InsightStore.DEFAULT_STORAGE_KEY, JVal.arr [JVal.obj wC10Entry])]
    storageKey := InsightStore.DEFAULT_STORAGE_KEY
    maxHistoryItems := InsightStore.DEFAULT_MAX_HISTORY_ITEMS
    telemetryHistory := []
    telemetryStorageKey := InsightStore.DEFAULT_TELEMETRY_STORAGE_KEY
    maxTelemetryItems := InsightStore.DEFAULT_MAX_TELEMETRY_ITEMS }

theorem c10_actions_coerced_witness :
    InsightStore.isInsightLike (JVal.obj wC10Entry) = true ∧
    (InsightStore.normalizeStoredInsight (JVal.obj wC10Entry)).actions = ["1", "b", "true"] ∧
    (InsightStore.restoreFromStorage wC10State).history =
      [InsightStore.normalizeStoredInsight (JVal.obj wC10Entry)] :=
  have h := c10_actions_coerced wC10Entry [JVal.num 1, JVal.str "b", JVal.bool true]
    "restored" "Summary" 1 2 rfl rfl rfl rfl rfl
  ⟨h.1, h.2.1.trans rfl, (h.2.2 wC10State _ rfl rfl (by decide)).trans rfl⟩
